import Mathlib

/-!
Verification of the InterviewIQ backend against its specification.

The Python sources under `backend/` are shallowly embedded: text is
`List Char`, dictionaries are association lists, machine floats that only
ever get compared are rationals, fallible paths return `Option`/`Except`
(`none`/`.error` marks an uncaught exception or a `ValueError`), and the
external AWS backends (Bedrock, Comprehend, DynamoDB, Textract, S3, the
network) are abstracted as explicit function parameters or merge semantics.

Embedding notes for the JSON layer (`bedrock_service._parse_json_response`):
the standard-library `json.loads`/`json.dumps` pair is modelled by an
executable parser/serializer over a JSON value type whose numbers are
integers (float formatting is out of scope of the embedding) and whose
string grammar covers the printable escapes (`\"`, `\\`, `\n`, `\t`, `\r`);
`\uXXXX` escapes and the rejection of raw control characters inside string
literals are idealized away, and the serializer uses compact separators.
The regular expression used for fenced code blocks is modelled by the
scanning function `fencedAttempt`, which reproduces the behaviour of
`re.search` for the concrete pattern (earliest opening fence that has a
closing fence wins; the `json` tag and following whitespace are skipped;
the interior is everything up to the earliest closing fence, and the code
strips it before parsing).
-/

namespace InterviewIQ

/-- Text is modelled as a list of characters. -/
abbrev Str := List Char

/-- Whitespace for Python `str.strip`. -/
def pySpace (c : Char) : Bool :=
  c = ' ' || c = '\t' || c = '\n' || c = '\r' || c = '\x0b' || c = '\x0c'

/-- Python `str.strip`: drop leading and trailing whitespace. -/
def pyStrip (s : Str) : Str :=
  ((s.dropWhile pySpace).reverse.dropWhile pySpace).reverse

/-- Decidable check that `p` is a leading segment of `s`. -/
def leadSeg : Str → Str → Bool
  | [], _ => true
  | _ :: _, [] => false
  | a :: p, b :: s => a = b && leadSeg p s

/-- Decidable substring containment, Python `p in s`. -/
def isSub (p s : Str) : Bool :=
  match s with
  | [] => p.isEmpty
  | _ :: t => leadSeg p s || isSub p t

/-- Lookup in an association list (Python `dict` access by key). -/
def assocGet (d : List (Str × α)) (k : Str) : Option α :=
  match d with
  | [] => none
  | (k', v) :: t => if k' = k then some v else assocGet t k

/-- Set a key in an association list, replacing in place or appending
(Python `dict` item assignment). -/
def assocSet (d : List (Str × α)) (k : Str) (v : α) : List (Str × α) :=
  match d with
  | [] => [(k, v)]
  | (k', v') :: t => if k' = k then (k, v) :: t else (k', v') :: assocSet t k v

/-! ### The JSON value model -/
/-- A JSON value as handled by `json.loads`/`json.dumps`, with integer
numbers (see the embedding notes above). -/
inductive Json where
  | null
  | bool (b : Bool)
  | num (n : Int)
  | str (s : Str)
  | arr (elems : List Json)
  | obj (fields : List (Str × Json))

/-- Character of a decimal digit value below ten. -/
def decChar : Nat → Char
  | 0 => '0' | 1 => '1' | 2 => '2' | 3 => '3' | 4 => '4'
  | 5 => '5' | 6 => '6' | 7 => '7' | 8 => '8' | _ => '9'

/-- Fuelled decimal rendering of a natural number (most significant digit
first); `fuel` only has to dominate the number itself. -/
def decDigitsF : Nat → Nat → Str
  | 0, _ => []
  | f + 1, n => if n < 10 then [decChar n] else decDigitsF f (n / 10) ++ [decChar (n % 10)]

/-- Decimal digits of a natural number. -/
def decDigits (n : Nat) : Str := decDigitsF (n + 1) n

/-- Decimal rendering of an integer, as `json.dumps` prints it. -/
def serInt (i : Int) : Str :=
  if i < 0 then '-' :: decDigits i.natAbs else decDigits i.natAbs

/-- JSON escape of one character (printable escapes; see embedding notes). -/
def escChar (c : Char) : Str :=
  if c = '"' then ['\\', '"']
  else if c = '\\' then ['\\', '\\']
  else if c = '\n' then ['\\', 'n']
  else if c = '\t' then ['\\', 't']
  else if c = '\r' then ['\\', 'r']
  else [c]

/-- JSON string literal body: every character escaped. -/
def escBody (s : Str) : Str := s.flatMap escChar

/-- A JSON string literal with its quotes. -/
def serStr (s : Str) : Str := '"' :: (escBody s ++ ['"'])

mutual
/-- Serialization of a JSON value, as `json.dumps` with compact separators. -/
def ser : Json → Str
  | .null => "null".toList
  | .bool true => "true".toList
  | .bool false => "false".toList
  | .num i => serInt i
  | .str s => serStr s
  | .arr xs => '[' :: (serList xs ++ [']'])
  | .obj fs => '\x7b' :: (serPairs fs ++ ['\x7d'])
/-- Comma-separated serialized array elements. -/
def serList : List Json → Str
  | [] => []
  | [x] => ser x
  | x :: y :: t => ser x ++ ',' :: serList (y :: t)
/-- Comma-separated serialized object members. -/
def serPairs : List (Str × Json) → Str
  | [] => []
  | [(k, v)] => serStr k ++ ':' :: ser v
  | (k, v) :: y :: t => serStr k ++ ':' :: ser v ++ ',' :: serPairs (y :: t)
end

/-! ### A model of `json.loads` -/
/-- JSON insignificant whitespace (RFC 8259). -/
def jsonWs (c : Char) : Bool := c = ' ' || c = '\t' || c = '\n' || c = '\r'

/-- Skip insignificant whitespace. -/
def skipWs : Str → Str
  | [] => []
  | c :: t => if jsonWs c then skipWs t else c :: t

/-- Numeric value of a decimal digit character. -/
def decVal (c : Char) : Nat := c.toNat - 48

/-- Decidable digit test over character codes. -/
def digitB (c : Char) : Bool := 48 ≤ c.toNat && c.toNat ≤ 57

/-- Fold a digit run into a natural number. -/
def digitsVal (ds : Str) : Nat := ds.foldl (fun a c => a * 10 + decVal c) 0

/-- Parse a nonempty run of decimal digits. -/
def parseDigits (s : Str) : Option (Nat × Str) :=
  let ds := s.takeWhile digitB
  if ds.isEmpty then none else some (digitsVal ds, s.dropWhile digitB)

/-- Inverse of a single-character escape. -/
def unescChar (c : Char) : Option Char :=
  if c = '"' then some '"'
  else if c = '\\' then some '\\'
  else if c = '/' then some '/'
  else if c = 'n' then some '\n'
  else if c = 't' then some '\t'
  else if c = 'r' then some '\r'
  else none

/-- Parse a string literal body after the opening quote. -/
def parseStrBody : Str → Option (Str × Str)
  | [] => none
  | c :: t =>
    if c = '"' then some ([], t)
    else if c = '\\' then
      match t with
      | [] => none
      | e :: t2 =>
        match unescChar e with
        | none => none
        | some d =>
          match parseStrBody t2 with
          | none => none
          | some (cs, r) => some (d :: cs, r)
    else
      match parseStrBody t with
      | none => none
      | some (cs, r) => some (c :: cs, r)

mutual
/-- Fuelled recursive-descent parser for one JSON value. -/
def parseVal : Nat → Str → Option (Json × Str)
  | 0, _ => none
  | f + 1, s =>
    match skipWs s with
    | 'n' :: 'u' :: 'l' :: 'l' :: r => some (.null, r)
    | 't' :: 'r' :: 'u' :: 'e' :: r => some (.bool true, r)
    | 'f' :: 'a' :: 'l' :: 's' :: 'e' :: r => some (.bool false, r)
    | '"' :: r =>
      match parseStrBody r with
      | some (cs, r2) => some (.str cs, r2)
      | none => none
    | '[' :: r =>
      (match skipWs r with
      | ']' :: r2 => some (.arr [], r2)
      | s2 => match parseItems f s2 with
        | some (xs, r2) => some (.arr xs, r2)
        | none => none)
    | '\x7b' :: r =>
      (match skipWs r with
      | '\x7d' :: r2 => some (.obj [], r2)
      | s2 => match parsePairs f s2 with
        | some (fs, r2) => some (.obj fs, r2)
        | none => none)
    | '-' :: r =>
      (match parseDigits r with
      | some (n, r2) => some (.num (-(n : Int)), r2)
      | none => none)
    | c :: r =>
      if digitB c then
        match parseDigits (c :: r) with
        | some (n, r2) => some (.num (n : Int), r2)
        | none => none
      else none
    | [] => none
/-- One or more comma-separated array elements, then the closing bracket. -/
def parseItems : Nat → Str → Option (List Json × Str)
  | 0, _ => none
  | f + 1, s =>
    match parseVal f s with
    | none => none
    | some (v, r) =>
      match skipWs r with
      | ']' :: r2 => some ([v], r2)
      | ',' :: r2 =>
        (match parseItems f r2 with
        | some (vs, r3) => some (v :: vs, r3)
        | none => none)
      | _ => none
/-- One or more comma-separated object members, then the closing brace. -/
def parsePairs : Nat → Str → Option (List (Str × Json) × Str)
  | 0, _ => none
  | f + 1, s =>
    match skipWs s with
    | '"' :: r =>
      (match parseStrBody r with
      | none => none
      | some (k, r1) =>
        match skipWs r1 with
        | ':' :: r2 =>
          (match parseVal f r2 with
          | none => none
          | some (v, r3) =>
            match skipWs r3 with
            | '\x7d' :: r4 => some ([(k, v)], r4)
            | ',' :: r4 =>
              (match parsePairs f r4 with
              | some (fs, r5) => some ((k, v) :: fs, r5)
              | none => none)
            | _ => none)
        | _ => none)
    | _ => none
end

/-- Model of `json.loads`: parse one value, reject trailing non-whitespace. -/
def loads (s : Str) : Option Json :=
  match parseVal (s.length + 1) s with
  | some (v, r) => if skipWs r = [] then some v else none
  | none => none

/-! ### Model of `BedrockService._parse_json_response` -/
/-- Three backticks, the code fence of the markdown pattern. -/
def fence : Str := ['\x60', '\x60', '\x60']

/-- Split a text at its first code fence: `some (before, after)` with the
three backticks removed, or `none` when no fence occurs. -/
def fenceSplit : Str → Option (Str × Str)
  | [] => none
  | c :: t =>
    if leadSeg fence (c :: t) then some ([], t.drop 2)
    else
      match fenceSplit t with
      | some (a, b) => some (c :: a, b)
      | none => none

/-- Scan for the first opening fence that also has a closing fence and
return the raw interior between them, retrying from the next character of
the opening fence when no closing fence follows, exactly as `re.search`
backtracks over candidate match starts for the pattern
three backticks, optional `json` tag, whitespace, lazy interior, fence. -/
def fencedAttempt : Nat → Str → Option Str
  | 0, _ => none
  | f + 1, s =>
    match fenceSplit s with
    | none => none
    | some (_, rest) =>
      let r1 := if leadSeg ['j', 's', 'o', 'n'] rest then rest.drop 4 else rest
      let r2 := r1.dropWhile pySpace
      match fenceSplit r2 with
      | some (interior, _) => some interior
      | none => fencedAttempt f ('\x60' :: '\x60' :: rest)

/-- Interior of the first fenced code block, as matched by the regular
expression of `_parse_json_response`. -/
def fencedInterior (s : Str) : Option Str := fencedAttempt s.length s

/-- Index of the first occurrence of a character (Python `str.find`). -/
def firstIdx (c : Char) (s : Str) : Option Nat := s.findIdx? (· = c)

/-- Index of the last occurrence of a character (Python `str.rfind`). -/
def lastIdx (c : Char) (s : Str) : Option Nat :=
  (s.reverse.findIdx? (· = c)).map (fun i => s.length - 1 - i)

/-- The inclusive slice `s[i : j + 1]`. -/
def sliceIncl (s : Str) (i j : Nat) : Str := (s.drop i).take (j - i + 1)

/-- Third strategy of `_parse_json_response` for one delimiter pair: parse
the span from the first opener to the last closer, when they are ordered. -/
def spanTry (s : Str) (a b : Char) : Option Json :=
  match firstIdx a s, lastIdx b s with
  | some i, some j => if i < j then loads (sliceIncl s i j) else none
  | _, _ => none

/-- Third strategy of `_parse_json_response`: braces first, then brackets. -/
def spanStep (s : Str) : Option Json :=
  match spanTry s '\x7b' '\x7d' with
  | some v => some v
  | none => spanTry s '[' ']'

/-- Model of `BedrockService._parse_json_response`: direct parse of the
stripped text, then the fenced-block interior, then the first-to-last
delimiter span; `none` models the final `ValueError`, which is a parse
error distinct from the backend `ClientError` (the latter is modelled as
`Except.error` wherever backends appear in this file). -/
def parseJsonResponse (text : Str) : Option Json :=
  let s := pyStrip text
  match loads s with
  | some v => some v
  | none =>
    match
      (match fencedInterior s with
      | some inner => loads (pyStrip inner)
      | none => none)
    with
    | some v => some v
    | none => spanStep s

/-- The head of the remainder is not a decimal digit (so a digit run
cannot extend into it). -/
def noDigitHead : Str → Bool
  | [] => true
  | c :: _ => !digitB c

/-! ### Fuel accounting for the parser -/
mutual
/-- Fuel sufficient for `parseVal` on the serialization of a value. -/
def fuelVal : Json → Nat
  | .null => 1
  | .bool _ => 1
  | .num _ => 1
  | .str _ => 1
  | .arr xs => 1 + fuelItems xs
  | .obj fs => 1 + fuelPairs fs
/-- Fuel sufficient for `parseItems` on serialized elements. -/
def fuelItems : List Json → Nat
  | [] => 0
  | x :: t => 1 + max (fuelVal x) (fuelItems t)
/-- Fuel sufficient for `parsePairs` on serialized members. -/
def fuelPairs : List (Str × Json) → Nat
  | [] => 0
  | (_, v) :: t => 1 + max (fuelVal v) (fuelPairs t)
end

/-! ### The serializer-parser round trip, by induction on fuel -/
/-- What follows the first element inside a serialized array. -/
def serListTail : List Json → Str
  | [] => []
  | y :: t => ',' :: serList (y :: t)

/-- What follows the first member inside a serialized object. -/
def serPairsTail : List (Str × Json) → Str
  | [] => []
  | q :: t => ',' :: serPairs (q :: t)

/-! ### Behaviour of `pyStrip` around serialized output -/
/-- Left strip only. -/
def stripL (s : Str) : Str := s.dropWhile pySpace

/-- Right strip only. -/
def stripR (s : Str) : Str := (s.reverse.dropWhile pySpace).reverse

/-- The markdown wrapper around a response text. -/
def fenceWrap (s : Str) : Str :=
  '\x60' :: '\x60' :: '\x60' :: 'j' :: 's' :: 'o' :: 'n' :: '\n' ::
    (s ++ '\n' :: '\x60' :: '\x60' :: '\x60' :: [])

/-! ### Model of `ComprehendService._chunk_text` -/
/-- UTF-8 encoded size of a text, Python `len(text.encode("utf-8"))`. -/
def utf8Len (s : Str) : Nat := (s.map Char.utf8Size).sum

/-- Python `text.split("\n")`: split on newlines, keeping empty pieces. -/
def pySplitNl : Str → List Str
  | [] => [[]]
  | c :: t =>
    if c = '\n' then [] :: pySplitNl t
    else
      match pySplitNl t with
      | h :: r => (c :: h) :: r
      | [] => [[c]]

/-- One iteration of the chunking loop of `_chunk_text`: extend the current
chunk with the next paragraph, flushing and hard-truncating (a character
slice, `paragraph[:max_bytes]`) when the byte budget is exceeded. -/
def chunkStep (maxB : Nat) (acc : List Str × Str) (para : Str) : List Str × Str :=
  let (chunks, current) := acc
  let test := if current ≠ [] then current ++ '\n' :: para else para
  if utf8Len test > maxB then
    (if current ≠ [] then chunks ++ [current] else chunks, para.take maxB)
  else (chunks, test)

/-- Model of `ComprehendService._chunk_text`. -/
def chunkText (text : Str) (maxB : Nat) : List Str :=
  if utf8Len text ≤ maxB then [text]
  else
    let fin := (pySplitNl text).foldl (chunkStep maxB) ([], [])
    if fin.2 ≠ [] then fin.1 ++ [fin.2] else fin.1

/-! ### Model of the Comprehend merge loops

Confidence scores are machine floats in the source; they are modelled as
rationals since the merge logic only ever compares them (the cosmetic
`round(score, 4)` on the stored copy is elided). -/
/-- A raw entity of a backend response (`Type`, `Text`, `Score`). -/
structure RawEntity where
  text : Str
  type : Str
  score : ℚ

/-- A merged entity as returned by `detect_entities`. -/
structure Entity where
  text : Str
  type : Str
  score : ℚ

/-- A raw key phrase of a backend response. -/
structure RawPhrase where
  text : Str
  score : ℚ

/-- A merged key phrase as returned by `detect_key_phrases`. -/
structure Phrase where
  text : Str
  score : ℚ

/-- Dictionary key of an entity: the string `Type:Text` built by the code. -/
def entKey (ty tx : Str) : Str := ty ++ ':' :: tx

/-- Dictionary key of a key phrase: the lowercased text. -/
def phraseKey (tx : Str) : Str := tx.map Char.toLower

/-- One iteration of either dedup loop: keep the incumbent unless the key is
new or the incoming score beats the stored one. -/
def dedupStep (key : α → Str) (conv : α → β) (sscore : β → ℚ) (rscore : α → ℚ)
    (d : List (Str × β)) (r : α) : List (Str × β) :=
  match assocGet d (key r) with
  | none => assocSet d (key r) (conv r)
  | some old => if sscore old < rscore r then assocSet d (key r) (conv r) else d

/-- Score-descending order used for the final `sorted(..., reverse=True)`. -/
def scoreGE (sscore : β → ℚ) (a b : β) : Prop := sscore b ≤ sscore a

instance (sscore : β → ℚ) : DecidableRel (scoreGE sscore) :=
  fun a b => inferInstanceAs (Decidable (sscore b ≤ sscore a))

instance (sscore : β → ℚ) : IsTotal β (scoreGE sscore) :=
  ⟨fun a b => le_total (sscore b) (sscore a)⟩

instance (sscore : β → ℚ) : IsTrans β (scoreGE sscore) :=
  ⟨fun _ _ _ h1 h2 => le_trans h2 h1⟩

/-- The chunked dedup fold shared by both detectors: blank chunks and failed
backend calls are skipped, all other responses feed the dictionary. -/
def chunkedFold (key : α → Str) (conv : α → β) (sscore : β → ℚ) (rscore : α → ℚ)
    (backend : Str → Option (List α)) (text : Str) : List (Str × β) :=
  (chunkText text 5000).foldl
    (fun d ch =>
      if pyStrip ch = [] then d
      else
        match backend ch with
        | none => d
        | some rs => rs.foldl (dedupStep key conv sscore rscore) d)
    []

/-- The raw results actually merged: responses of the backend on non-blank
chunks, in chunk order (failed chunks contribute nothing). -/
def mergedInputs (backend : Str → Option (List α)) (text : Str) : List α :=
  ((chunkText text 5000).map
    (fun ch => if pyStrip ch = [] then [] else (backend ch).getD [])).flatten

/-- Model of `ComprehendService.detect_entities` over an abstract backend. -/
def detect_entities (backend : Str → Option (List RawEntity)) (text : Str) : List Entity :=
  List.insertionSort (scoreGE Entity.score)
    ((chunkedFold (fun r => entKey r.type r.text) (fun r => ⟨r.text, r.type, r.score⟩)
      Entity.score RawEntity.score backend text).map Prod.snd)

/-- Model of `ComprehendService.detect_key_phrases` over an abstract backend. -/
def detect_key_phrases (backend : Str → Option (List RawPhrase)) (text : Str) : List Phrase :=
  List.insertionSort (scoreGE Phrase.score)
    ((chunkedFold (fun r => phraseKey r.text) (fun r => ⟨r.text, r.score⟩)
      Phrase.score RawPhrase.score backend text).map Prod.snd)

/-! ### Invariant of the dedup fold -/
/-- Characterization of one dictionary slot after merging `seen`: absent iff no
raw item had this key, otherwise the stored value converts a raw item with this
key and dominates every score observed for it. -/
def Good (key : α → Str) (conv : α → β) (sscore : β → ℚ) (rscore : α → ℚ)
    (k : Str) (seen : List α) : Option β → Prop
  | none => ∀ r ∈ seen, key r ≠ k
  | some e => (∃ r ∈ seen, key r = k ∧ conv r = e) ∧
      ∀ r ∈ seen, key r = k → rscore r ≤ sscore e

/-- Backend stub used only to instantiate C5: the same entity reported twice
with different scores. -/
def ebackW : Str → Option (List RawEntity) :=
  fun _ => some [⟨['A'], ['O', 'R', 'G'], (9 : ℚ) / 10⟩,
    ⟨['A'], ['O', 'R', 'G'], (95 : ℚ) / 100⟩]

/-- Backend stub used only to instantiate C5: two phrases differing only in
case. -/
def pbackW : Str → Option (List RawPhrase) :=
  fun _ => some [⟨['a', 'B'], (1 : ℚ) / 2⟩, ⟨['A', 'b'], (3 : ℚ) / 4⟩]

/-! ### Model of `ComprehendService.detect_sentiment` -/
/-- A successful Comprehend sentiment response (`Sentiment`, `SentimentScore`). -/
structure SentResponse where
  sentiment : Str
  positive : ℚ
  negative : ℚ
  neutral : ℚ
  mixed : ℚ

/-- The dict returned by `detect_sentiment`; `error` records whether the
"error" key is present. -/
structure SentOut where
  sentiment : Str
  scores : List (Str × ℚ)
  error : Bool
deriving DecidableEq

/-- Model of `ComprehendService.detect_sentiment` over an abstract backend
(`none` = ClientError). The result `none` models an uncaught exception: the
expression `self._chunk_text(text)[0] if text else ""` raises IndexError when
the chunk list is empty. The cosmetic `round(., 4)` on scores is elided. -/
def detect_sentiment (backend : Str → Option SentResponse) (text : Str) : Option SentOut :=
  match (if text = [] then some ([] : Str) else (chunkText text 5000).head?) with
  | none => none
  | some chunk =>
    if pyStrip chunk = [] then some ⟨"NEUTRAL".toList, [], false⟩
    else
      match backend chunk with
      | none => some ⟨"UNKNOWN".toList, [], true⟩
      | some r =>
        some ⟨r.sentiment,
          [("positive".toList, r.positive), ("negative".toList, r.negative),
           ("neutral".toList, r.neutral), ("mixed".toList, r.mixed)], false⟩

/-! ### Model of `DynamoDBService.update_session` -/
/-- Model of `update_session`: the code sets `updates["updatedAt"] = now`,
then issues one DynamoDB SET action per entry of the dict against the stored
record, with `ReturnValues="ALL_NEW"` returning the full post-merge record.
Records and update maps are association lists over an abstract value type. -/
def update_session (now : V) (record updates : List (Str × V)) : List (Str × V) :=
  (assocSet updates ("updatedAt".toList) now).foldl
    (fun r kv => assocSet r kv.1 kv.2) record

/-! ### Model of `ScraperService` -/
/-- A fetched page as consumed by the aggregator: `success` is the dict's
truthy "success" flag, the other fields are the `.get(..., default)` values. -/
structure Page where
  success : Bool
  content : Str
  headings : List Str
  description : Str
deriving DecidableEq

/-- The separator `"\n\n---\n\n"` joined between successful pages. -/
def sepStr : Str := "\n\n---\n\n".toList

/-- Python `sep.join(l)`. -/
def pyJoin (sep : Str) : List Str → Str
  | [] => []
  | [x] => x
  | x :: y :: t => x ++ sep ++ pyJoin sep (y :: t)

/-- The summary dict built by `_aggregate_scraped_data`. -/
structure ScrapeSummary where
  name : Str
  description : Str
  combined_content : Str
  headings : List Str
  pages_scraped : Nat
  total_content_length : Nat
deriving DecidableEq

/-- Model of `ScraperService._aggregate_scraped_data`. -/
def aggregate_scraped_data (company_name : Str) (pages : List Page) : ScrapeSummary :=
  let succ := pages.filter Page.success
  { name := company_name
    description := match pages with | [] => [] | p :: _ => p.description
    combined_content := pyJoin sepStr (succ.map Page.content)
    headings := (succ.map Page.headings).flatten
    pages_scraped := succ.length
    total_content_length := ((succ.map Page.content).map List.length).sum }

/-- The result dict of `scrape_company`; `summary` is either a canned mock
profile (left) or a live aggregation (right). -/
structure ScrapeResult (μ : Type) where
  company_name : Str
  company_url : Str
  pages : List Page
  summary : μ ⊕ ScrapeSummary
  source : Str

/-- Python `company_name.lower().replace(" ", "_")`. -/
def pyNormalize (s : Str) : Str :=
  (s.map Char.toLower).map (fun c => if c = ' ' then '_' else c)

/-- The mock-dictionary match test: `key.lower() in normalized_name or
normalized_name in key.lower()`. -/
def mockPred (normalized : Str) (kv : Str × μ) : Bool :=
  isSub (kv.1.map Char.toLower) normalized || isSub normalized (kv.1.map Char.toLower)

/-- Model of `ScraperService.scrape_company` over an abstract mock dictionary
and an abstract network fetcher producing the live page list for an optional
URL (the URL-and-about-pages loop). -/
def scrape_company (mock : List (Str × μ)) (livePages : Option Str → List Page)
    (company_name : Str) (company_url : Option Str) : ScrapeResult μ :=
  match mock.find? (mockPred (pyNormalize company_name)) with
  | some kv =>
    { company_name := company_name, company_url := company_url.getD [],
      pages := [], summary := Sum.inl kv.2, source := "mock_data".toList }
  | none =>
    let pages := livePages company_url
    { company_name := company_name, company_url := company_url.getD [],
      pages := pages, summary := Sum.inr (aggregate_scraped_data company_name pages),
      source := "live_scrape".toList }

/-! ### Models of the four Bedrock generation operations

Each operation invokes Claude (the response text is taken as a parameter) and
feeds the text to `_parse_json_response`, already embedded as
`parseJsonResponse`; `none` is the ValueError of a parse failure, which every
operation catches and converts to its fallback value. -/
/-- The fallback profile dict of `generate_company_profile` (the dict
consulted for the echoed name is `scraped_data`). -/
def profileFallbackFields (scraped_data : List (Str × Json)) (response_text : Str) :
    List (Str × Json) :=
  [
      ("name".toList,
        match assocGet scraped_data ("company_name".toList) with
        | some v => v
        | none =>
          match assocGet scraped_data ("name".toList) with
          | some v => v
          | none => Json.str ("Unknown".toList)),
      ("industry".toList, Json.str ("Unknown".toList)),
      ("region".toList, Json.str ("Unknown".toList)),
      ("stage".toList, Json.str ("Unknown".toList)),
      ("description".toList, Json.str (response_text.take 500)),
      ("business_model".toList, Json.obj []),
      ("key_people".toList, Json.arr []),
      ("competitors".toList, Json.arr []),
      ("key_initiatives".toList, Json.arr []),
      ("risks".toList, Json.arr []),
      ("hypotheses".toList, Json.arr []),
      ("confidence_level".toList,
        Json.str ("Low — JSON parse failed, raw text returned".toList))]

/-- Model of `BedrockService.generate_company_profile` (the post-invoke
parse-or-fallback logic). -/
def generate_company_profile (scraped_data : List (Str × Json)) (response_text : Str) : Json :=
  match parseJsonResponse response_text with
  | some profile => profile
  | none => Json.obj (profileFallbackFields scraped_data response_text)

/-- Model of `BedrockService.generate_questions`: a parsed list is returned,
any other parse outcome degrades to the empty list. -/
def generate_questions (response_text : Str) : List Json :=
  match parseJsonResponse response_text with
  | some (Json.arr qs) => qs
  | some _ => []
  | none => []

/-- The fallback brief dict of `generate_interviewer_brief`. -/
def briefFallbackFields (company_profile questions : Json) : List (Str × Json) :=
  [("executive_summary".toList,
      Json.str ("Brief generation encountered a parsing error.".toList)),
    ("company_overview".toList, company_profile),
    ("industry_context".toList, Json.str []),
    ("pre_call_hypotheses".toList, Json.arr []),
    ("questions".toList, questions),
    ("conversation_flow".toList, Json.obj [
      ("opening".toList, Json.str []),
      ("core".toList, Json.arr []),
      ("closing".toList, Json.str [])]),
    ("key_facts".toList, Json.arr [])]

/-- Model of `BedrockService.generate_interviewer_brief`. On success the code
evaluates `len(brief)`, which raises an uncaught TypeError when the parsed
value is a scalar (modelled as `none`); a parse failure yields the 7-key
fallback. -/
def generate_interviewer_brief (company_profile questions : Json)
    (response_text : Str) : Option Json :=
  match parseJsonResponse response_text with
  | some brief =>
    match brief with
    | Json.obj _ => some brief
    | Json.arr _ => some brief
    | Json.str _ => some brief
    | _ => none
  | none => some (Json.obj (briefFallbackFields company_profile questions))

/-- A question simplified for the interviewee menu (`id`, `question`,
`topic` from `category`, with "" defaults). -/
def simplifyQuestion (q : List (Str × Json)) : Json :=
  Json.obj [
    ("id".toList, (assocGet q ("id".toList)).getD (Json.str [])),
    ("question".toList, (assocGet q ("question".toList)).getD (Json.str [])),
    ("topic".toList, (assocGet q ("category".toList)).getD (Json.str []))]

/-- The constant invitation text of the packet fallback. -/
def invitationText : Str :=
  ("We used AI to research your company before the interview. " ++
   "Please take a moment to review what we found and let us know " ++
   "if anything needs to be corrected. You can also select 2-3 " ++
   "questions you would most like to discuss.").toList

/-- The fallback packet dict of `generate_interviewee_packet`. -/
def packetFallbackFields (company_profile : List (Str × Json))
    (questions : List (List (Str × Json))) : List (Str × Json) :=
  [("ai_findings".toList, Json.obj [
      ("company_summary".toList,
        (assocGet company_profile ("description".toList)).getD (Json.str [])),
      ("key_facts".toList,
        (assocGet company_profile ("key_initiatives".toList)).getD (Json.arr [])),
      ("topics_identified".toList,
        Json.arr ((questions.take 5).map
          (fun q => (assocGet q ("category".toList)).getD (Json.str []))))]),
    ("questions_menu".toList, Json.arr (questions.map simplifyQuestion)),
    ("invitation_text".toList, Json.str invitationText)]

/-- Model of `BedrockService.generate_interviewee_packet`. -/
def generate_interviewee_packet (company_profile : List (Str × Json))
    (questions : List (List (Str × Json))) (response_text : Str) : Json :=
  match parseJsonResponse response_text with
  | some packet => packet
  | none => Json.obj (packetFallbackFields company_profile questions)

/-- The 12 keys of the documented profile schema. -/
def profileSchemaKeys : List Str :=
  ["name", "industry", "region", "stage", "description", "business_model",
   "key_people", "competitors", "key_initiatives", "risks", "hypotheses",
   "confidence_level"].map String.toList

/-- The 7 keys of the documented brief schema. -/
def briefSchemaKeys : List Str :=
  ["executive_summary", "company_overview", "industry_context",
   "pre_call_hypotheses", "questions", "conversation_flow", "key_facts"].map
    String.toList

/-- The 3 keys of the documented packet schema. -/
def packetSchemaKeys : List Str :=
  ["ai_findings", "questions_menu", "invitation_text"].map String.toList

/-! ### Model of `TextractService.upload_and_process` and the ParseDocument
handler -/
/-- Suffix after the last '.' (Python `s.rsplit(".", 1)[-1]`; the whole
string when no dot occurs, a case the caller guards). -/
def lastSplitDot (s : Str) : Str :=
  s.foldl (fun acc c => if c = '.' then [] else acc ++ [c]) []

/-- The routing extension: `filename.lower().rsplit(".", 1)[-1] if "." in
filename else ""`. -/
def extOf (filename : Str) : Str :=
  if '.' ∈ filename then lastSplitDot (filename.map Char.toLower) else []

/-- Extensions routed to Textract OCR. -/
def supportedTextract : List Str :=
  ["pdf", "png", "jpg", "jpeg", "tiff"].map String.toList

/-- The dict returned by `upload_and_process` (`error` records the presence
of the "error" key). -/
structure ExtractResult where
  text : Str
  method : Str
  filename : Str
  s3_key : Str
  error : Option Str
deriving DecidableEq

/-- Model of `TextractService.upload_and_process`: upload to
`uploads/{session_id}/{filename}`, then route on the lowercased extension;
the two extraction backends are abstracted as the texts they would return
for this file. -/
def upload_and_process (docxText textractText : Str) (filename session_id : Str) :
    ExtractResult :=
  let s3_key := "uploads/".toList ++ session_id ++ '/' :: filename
  let ext := extOf filename
  if ext = "docx".toList then
    ⟨docxText, "python-docx".toList, filename, s3_key, none⟩
  else if ext ∈ supportedTextract then
    ⟨textractText, "textract".toList, filename, s3_key, none⟩
  else
    ⟨[], "unsupported".toList, filename, s3_key,
      some ("Unsupported file type: .".toList ++ ext)⟩

/-- An entry appended to the session's `parsedDocuments`. -/
structure ParsedDocEntry where
  filename : Str
  method : Str
  text_length : Nat
  s3_key : Str
deriving DecidableEq

/-- The slice of a session record the handler reads. -/
structure SessionRec where
  createdAt : Str
  parsedDocuments : List ParsedDocEntry
deriving DecidableEq

/-- The handler's API Gateway response: an error envelope or the success
payload fields. -/
inductive HandlerResp where
  | err (message : Str) (statusCode : Nat)
  | ok (sessionId filename method : Str) (text_length : Nat)
      (text_preview s3_key : Str)
deriving DecidableEq

/-- Model of the ParseDocument `lambda_handler` after body parsing: the
session store is abstracted as a lookup function, `hasFile` records whether
fileContent or s3Key was supplied, and the second component records the
`update_session` write (session id, sort key, new `parsedDocuments` list)
issued when the session exists, `none` when no write happens. -/
def lambda_handler (getSession : Str → Option SessionRec)
    (docxText textractText : Str) (session_id filename : Str) (hasFile : Bool) :
    HandlerResp × Option (Str × Str × List ParsedDocEntry) :=
  if session_id = [] ∨ filename = [] then
    (HandlerResp.err ("sessionId and filename are required".toList) 400, none)
  else if ¬hasFile then
    (HandlerResp.err ("Either fileContent or s3Key is required".toList) 400, none)
  else
    let result := upload_and_process docxText textractText filename session_id
    let write :=
      match getSession session_id with
      | none => none
      | some sess =>
        some (session_id, sess.createdAt, sess.parsedDocuments ++
          [⟨filename, result.method, result.text.length, result.s3_key⟩])
    (HandlerResp.ok session_id filename result.method result.text.length
      (result.text.take 500) result.s3_key, write)

/-! ### Digit-level inversion lemmas -/
theorem decChar_val (k : Nat) (h : k < 10) :
    decVal (decChar k) = k ∧ digitB (decChar k) = true := by
  interval_cases k <;> exact ⟨by decide, by decide⟩

theorem decDigitsF_congr : ∀ f g n, n < f → n < g → decDigitsF f n = decDigitsF g n := by
  intro f
  induction f with
  | zero => intro g n h; omega
  | succ f ih =>
    intro g n hf hg
    cases g with
    | zero => omega
    | succ g =>
      by_cases h10 : n < 10
      · simp [decDigitsF, h10]
      · have hdiv : n / 10 < n := Nat.div_lt_self (by omega) (by omega)
        simp only [decDigitsF, if_neg h10]
        rw [ih g (n / 10) (by omega) (by omega)]

theorem decDigits_unfold (n : Nat) :
    decDigits n = if n < 10 then [decChar n] else decDigits (n / 10) ++ [decChar (n % 10)] := by
  by_cases h10 : n < 10
  · simp [decDigits, decDigitsF, h10]
  · rw [if_neg h10]
    show decDigitsF (n + 1) n = _
    rw [show decDigitsF (n + 1) n = decDigitsF n (n / 10) ++ [decChar (n % 10)] from by
      simp [decDigitsF, h10]]
    have hcg := decDigitsF_congr n (n / 10 + 1) (n / 10)
      (by omega) (by omega)
    rw [hcg]; rfl

theorem decDigits_ne_nil (n : Nat) : decDigits n ≠ [] := by
  rw [decDigits_unfold]
  by_cases h10 : n < 10 <;> simp [h10]

theorem decDigits_all_digit (n : Nat) : ∀ c ∈ decDigits n, digitB c = true := by
  induction n using Nat.strongRecOn with
  | _ n ih =>
    rw [decDigits_unfold]
    by_cases h10 : n < 10
    · simp only [if_pos h10, List.mem_singleton]
      intro c hc
      exact hc ▸ (decChar_val n h10).2
    · simp only [if_neg h10, List.mem_append, List.mem_singleton]
      rintro c (hc | rfl)
      · exact ih (n / 10) (Nat.div_lt_self (by omega) (by omega)) c hc
      · exact (decChar_val (n % 10) (Nat.mod_lt _ (by omega))).2

theorem digitsVal_snoc (xs : Str) (c : Char) :
    digitsVal (xs ++ [c]) = 10 * digitsVal xs + decVal c := by
  simp [digitsVal, List.foldl_append]
  omega

theorem digitsVal_decDigits (n : Nat) : digitsVal (decDigits n) = n := by
  induction n using Nat.strongRecOn with
  | _ n ih =>
    rw [decDigits_unfold]
    by_cases h10 : n < 10
    · simp only [if_pos h10]
      show digitsVal ([] ++ [decChar n]) = n
      rw [digitsVal_snoc]
      have := (decChar_val n h10).1
      simp [digitsVal]
      omega
    · simp only [if_neg h10]
      rw [digitsVal_snoc, ih (n / 10) (Nat.div_lt_self (by omega) (by omega)),
        (decChar_val (n % 10) (Nat.mod_lt _ (by omega))).1]
      omega

theorem takeWhile_digit_run (ds rest : Str) (hds : ∀ c ∈ ds, digitB c = true)
    (hrest : noDigitHead rest = true) :
    (ds ++ rest).takeWhile digitB = ds ∧ (ds ++ rest).dropWhile digitB = rest := by
  induction ds with
  | nil =>
    cases rest with
    | nil => exact ⟨rfl, rfl⟩
    | cons c t =>
      simp only [noDigitHead, Bool.not_eq_true'] at hrest
      simp [List.takeWhile, List.dropWhile, hrest]
  | cons c t ih =>
    have hc : digitB c = true := hds c (by simp)
    have ht := ih (fun x hx => hds x (by simp [hx]))
    simp [List.takeWhile, List.dropWhile, hc, ht.1, ht.2]

theorem parseDigits_run (n : Nat) (rest : Str) (hrest : noDigitHead rest = true) :
    parseDigits (decDigits n ++ rest) = some (n, rest) := by
  have h := takeWhile_digit_run (decDigits n) rest (decDigits_all_digit n) hrest
  simp only [parseDigits, h.1, h.2]
  rw [if_neg (by simp [decDigits_ne_nil n]), digitsVal_decDigits]

/-! ### String-literal inversion lemmas -/
theorem parseStrBody_escChar (c : Char) (rest : Str) :
    parseStrBody (escChar c ++ rest) = (parseStrBody rest).map (fun p => (c :: p.1, p.2)) := by
  by_cases h1 : c = '"'
  · subst h1
    cases h : parseStrBody rest <;> simp [escChar, parseStrBody, unescChar, h]
  · by_cases h2 : c = '\\'
    · subst h2
      cases h : parseStrBody rest <;> simp [escChar, parseStrBody, unescChar, h]
    · by_cases h3 : c = '\n'
      · subst h3
        cases h : parseStrBody rest <;> simp [escChar, parseStrBody, unescChar, h]
      · by_cases h4 : c = '\t'
        · subst h4
          cases h : parseStrBody rest <;> simp [escChar, parseStrBody, unescChar, h]
        · by_cases h5 : c = '\r'
          · subst h5
            cases h : parseStrBody rest <;> simp [escChar, parseStrBody, unescChar, h]
          · rw [show escChar c = [c] from by simp [escChar, h1, h2, h3, h4, h5],
              List.singleton_append]
            cases h : parseStrBody rest <;>
              (rw [parseStrBody.eq_def]; simp [if_neg h1, if_neg h2, h])

theorem parseStrBody_escBody (s rest : Str) :
    parseStrBody (escBody s ++ '"' :: rest) = some (s, rest) := by
  induction s with
  | nil =>
    show parseStrBody ('"' :: rest) = some ([], rest)
    rw [parseStrBody.eq_def]
    simp
  | cons c t ih =>
    show parseStrBody ((escChar c ++ escBody t) ++ '"' :: rest) = _
    rw [List.append_assoc, parseStrBody_escChar, ih]
    rfl

/-! ### Head-character facts about serialized output -/
theorem digitB_props {c : Char} (h : digitB c = true) :
    jsonWs c = false ∧ c ≠ ']' ∧ c ≠ '\x7d' ∧ c ≠ ',' ∧ c ≠ ':' ∧
      c ≠ 'n' ∧ c ≠ 't' ∧ c ≠ 'f' ∧ c ≠ '"' ∧ c ≠ '[' ∧ c ≠ '\x7b' ∧ c ≠ '-' := by
  simp only [digitB, Bool.and_eq_true, decide_eq_true_eq] at h
  refine ⟨?_, ?_, ?_, ?_, ?_, ?_, ?_, ?_, ?_, ?_, ?_, ?_⟩
  · simp only [jsonWs, Bool.or_eq_false_iff, decide_eq_false_iff_not]
    refine ⟨⟨⟨?_, ?_⟩, ?_⟩, ?_⟩ <;> (rintro rfl; revert h; decide)
  all_goals (rintro rfl; revert h; decide)

theorem skipWs_not_ws {c : Char} (t : Str) (h : jsonWs c = false) :
    skipWs (c :: t) = c :: t := by
  simp [skipWs, h]

theorem decDigits_head (n : Nat) :
    ∃ c t, decDigits n = c :: t ∧ digitB c = true := by
  match h : decDigits n with
  | [] => exact absurd h (decDigits_ne_nil n)
  | c :: t =>
    refine ⟨c, t, rfl, decDigits_all_digit n c ?_⟩
    rw [h]; exact List.mem_cons_self c t

theorem ser_head (v : Json) :
    ∃ c t, ser v = c :: t ∧ jsonWs c = false ∧ c ≠ ']' ∧ c ≠ '\x7d' ∧ c ≠ ',' := by
  cases v with
  | null => exact ⟨'n', _, rfl, by decide, by decide, by decide, by decide⟩
  | bool b =>
    cases b with
    | true => exact ⟨'t', _, rfl, by decide, by decide, by decide, by decide⟩
    | false => exact ⟨'f', _, rfl, by decide, by decide, by decide, by decide⟩
  | num i =>
    by_cases hneg : i < 0
    · refine ⟨'-', decDigits i.natAbs, ?_, by decide, by decide, by decide, by decide⟩
      show serInt i = _
      simp [serInt, hneg]
    · obtain ⟨c, t, hct, hc⟩ := decDigits_head i.natAbs
      obtain ⟨hws, hrb, hrc, hcm, -⟩ := digitB_props hc
      refine ⟨c, t, ?_, hws, hrb, hrc, hcm⟩
      show serInt i = _
      rw [serInt, if_neg hneg, hct]
  | str s => exact ⟨'"', escBody s ++ ['"'], rfl, by decide, by decide, by decide, by decide⟩
  | arr xs => exact ⟨'[', serList xs ++ [']'], rfl, by decide, by decide, by decide, by decide⟩
  | obj fs =>
    exact ⟨'\x7b', serPairs fs ++ ['\x7d'], rfl, by decide, by decide, by decide, by decide⟩

theorem parseItems_succ (f : Nat) (s : Str) :
    parseItems (f + 1) s =
      match parseVal f s with
      | none => none
      | some (v, r) =>
        match skipWs r with
        | ']' :: r2 => some ([v], r2)
        | ',' :: r2 =>
          (match parseItems f r2 with
          | some (vs, r3) => some (v :: vs, r3)
          | none => none)
        | _ => none := rfl

theorem parsePairs_succ (f : Nat) (s : Str) :
    parsePairs (f + 1) s =
      match skipWs s with
      | '"' :: r =>
        (match parseStrBody r with
        | none => none
        | some (k, r1) =>
          match skipWs r1 with
          | ':' :: r2 =>
            (match parseVal f r2 with
            | none => none
            | some (v, r3) =>
              match skipWs r3 with
              | '\x7d' :: r4 => some ([(k, v)], r4)
              | ',' :: r4 =>
                (match parsePairs f r4 with
                | some (fs, r5) => some ((k, v) :: fs, r5)
                | none => none)
              | _ => none)
          | _ => none)
      | _ => none := rfl

theorem parseVal_succ_quote (f : Nat) (x : Str) :
    parseVal (f + 1) ('"' :: x) =
      match parseStrBody x with
      | some (cs, r2) => some (.str cs, r2)
      | none => none := rfl

theorem parseVal_succ_lbracket (f : Nat) (x : Str) :
    parseVal (f + 1) ('[' :: x) =
      match skipWs x with
      | ']' :: r2 => some (.arr [], r2)
      | s2 =>
        match parseItems f s2 with
        | some (xs, r2) => some (.arr xs, r2)
        | none => none := rfl

theorem parseVal_succ_lbrace (f : Nat) (x : Str) :
    parseVal (f + 1) ('\x7b' :: x) =
      match skipWs x with
      | '\x7d' :: r2 => some (.obj [], r2)
      | s2 =>
        match parsePairs f s2 with
        | some (fs, r2) => some (.obj fs, r2)
        | none => none := rfl

theorem parseVal_succ_minus (f : Nat) (x : Str) :
    parseVal (f + 1) ('-' :: x) =
      match parseDigits x with
      | some (n, r2) => some (.num (-(n : Int)), r2)
      | none => none := rfl

theorem parseVal_succ_digit (f : Nat) (c : Char) (t : Str) (hc : digitB c = true) :
    parseVal (f + 1) (c :: t) =
      match parseDigits (c :: t) with
      | some (n, r2) => some (.num (n : Int), r2)
      | none => none := by
  have hrange : c.toNat = 48 ∨ c.toNat = 49 ∨ c.toNat = 50 ∨ c.toNat = 51 ∨ c.toNat = 52 ∨
      c.toNat = 53 ∨ c.toNat = 54 ∨ c.toNat = 55 ∨ c.toNat = 56 ∨ c.toNat = 57 := by
    simp only [digitB, Bool.and_eq_true, decide_eq_true_eq] at hc
    omega
  have hofn := Char.ofNat_toNat c
  rcases hrange with h | h | h | h | h | h | h | h | h | h <;> (rw [← hofn, h]; rfl)

theorem parseVal_succ_num (f : Nat) (i : Int) (rest : Str) (h : noDigitHead rest = true) :
    parseVal (f + 1) (serInt i ++ rest) = some (.num i, rest) := by
  by_cases hneg : i < 0
  · rw [show serInt i = '-' :: decDigits i.natAbs from by simp [serInt, hneg],
      List.cons_append, parseVal_succ_minus, parseDigits_run _ _ h]
    show some (Json.num (-((i.natAbs : Nat) : Int)), rest) = some (Json.num i, rest)
    have hi : -((i.natAbs : Nat) : Int) = i := by omega
    rw [hi]
  · obtain ⟨c, t, hct, hc⟩ := decDigits_head i.natAbs
    have hser : serInt i = decDigits i.natAbs := by simp [serInt, hneg]
    have hcons : serInt i ++ rest = c :: (t ++ rest) := by rw [hser, hct]; rfl
    rw [hcons, parseVal_succ_digit f c _ hc,
      show c :: (t ++ rest) = decDigits i.natAbs ++ rest from by rw [hct]; rfl,
      parseDigits_run _ _ h]
    show some (Json.num ((i.natAbs : Nat) : Int), rest) = some (Json.num i, rest)
    have hi : ((i.natAbs : Nat) : Int) = i := by omega
    rw [hi]

theorem noDigitHead_cons {c : Char} (t : Str) (h : digitB c = false) :
    noDigitHead (c :: t) = true := by
  simp [noDigitHead, h]

theorem serList_cons (x : Json) (t : List Json) :
    serList (x :: t) = ser x ++ serListTail t := by
  cases t <;> simp [serList, serListTail]

theorem serPairs_cons (k : Str) (v : Json) (t : List (Str × Json)) :
    serPairs ((k, v) :: t) = serStr k ++ ':' :: (ser v ++ serPairsTail t) := by
  cases t <;> simp [serPairs, serPairsTail]

theorem roundTrip (f : Nat) :
    (∀ (v : Json) (rest : Str), fuelVal v ≤ f →
      (∀ i : Int, v = .num i → noDigitHead rest = true) →
      parseVal f (ser v ++ rest) = some (v, rest)) ∧
    (∀ (x : Json) (xs : List Json) (rest : Str),
      fuelItems (x :: xs) ≤ f →
      parseItems f (serList (x :: xs) ++ ']' :: rest) = some (x :: xs, rest)) ∧
    (∀ (k : Str) (v : Json) (fs : List (Str × Json)) (rest : Str),
      fuelPairs ((k, v) :: fs) ≤ f →
      parsePairs f (serPairs ((k, v) :: fs) ++ '\x7d' :: rest) = some ((k, v) :: fs, rest)) := by
  induction f with
  | zero =>
    refine ⟨fun v rest hf _ => absurd hf ?_, fun x xs rest hf => absurd hf ?_,
      fun k v fs rest hf => absurd hf ?_⟩
    · cases v <;> simp [fuelVal]
    · simp [fuelItems]
    · simp [fuelPairs]
  | succ f ih =>
    obtain ⟨ihv, ihi, ihp⟩ := ih
    refine ⟨?_, ?_, ?_⟩
    · intro v rest hf hrest
      cases v with
      | null => rfl
      | bool b => cases b <;> rfl
      | num i => exact parseVal_succ_num f i rest (hrest i rfl)
      | str s =>
        show parseVal (f + 1) ('"' :: (escBody s ++ ['"'] ++ rest)) = _
        rw [parseVal_succ_quote, List.append_assoc, List.singleton_append,
          parseStrBody_escBody]
      | arr xs =>
        cases xs with
        | nil => rfl
        | cons x t =>
          obtain ⟨c, ct, hct, hws, hrb, -⟩ := ser_head x
          have hS : serList (x :: t) ++ ']' :: rest =
              c :: (ct ++ (serListTail t ++ ']' :: rest)) := by
            rw [serList_cons, hct]; simp
          have hit := ihi x t rest (by simp only [fuelVal] at hf; omega)
          rw [hS] at hit
          show parseVal (f + 1) ('[' :: ((serList (x :: t) ++ [']']) ++ rest)) =
            some (.arr (x :: t), rest)
          rw [parseVal_succ_lbracket, List.append_assoc, List.singleton_append, hS,
            skipWs_not_ws _ hws]
          simp [hrb, hit]
      | obj fs =>
        cases fs with
        | nil => rfl
        | cons p t =>
          obtain ⟨k, v⟩ := p
          have hS : serPairs ((k, v) :: t) ++ '\x7d' :: rest =
              '"' :: (escBody k ++ '"' :: ':' :: (ser v ++ (serPairsTail t ++ '\x7d' :: rest))) := by
            rw [serPairs_cons, serStr]; simp
          have hit := ihp k v t rest (by simp only [fuelVal] at hf; omega)
          rw [hS] at hit
          show parseVal (f + 1) ('\x7b' :: ((serPairs ((k, v) :: t) ++ ['\x7d']) ++ rest)) =
            some (.obj ((k, v) :: t), rest)
          rw [parseVal_succ_lbrace, List.append_assoc, List.singleton_append, hS,
            skipWs_not_ws _ (by decide)]
          simp [hit]
    · intro x xs rest hf
      rw [parseItems_succ]
      cases xs with
      | nil =>
        have hx := ihv x (']' :: rest)
          (by simp only [fuelItems] at hf; omega)
          (fun _ _ => noDigitHead_cons _ (by decide))
        rw [show serList [x] ++ ']' :: rest = ser x ++ ']' :: rest from rfl, hx]
        simp [skipWs, jsonWs]
      | cons y t =>
        have hx := ihv x (',' :: (serList (y :: t) ++ ']' :: rest))
          (by simp only [fuelItems] at hf; omega) (fun _ _ => noDigitHead_cons _ (by decide))
        have hrec := ihi y t rest (by simp only [fuelItems] at hf ⊢; omega)
        rw [show serList (x :: y :: t) ++ ']' :: rest =
            ser x ++ (',' :: (serList (y :: t) ++ ']' :: rest)) from by
          simp [serList], hx]
        simp [skipWs, jsonWs, hrec]
    · intro k v fs rest hf
      have hkey : serPairs ((k, v) :: fs) ++ '\x7d' :: rest =
          '"' :: (escBody k ++ '"' :: (':' :: (ser v ++ (serPairsTail fs ++ '\x7d' :: rest)))) := by
        rw [serPairs_cons, serStr]; simp
      rw [hkey, parsePairs_succ, skipWs_not_ws _ (by decide)]
      simp only [parseStrBody_escBody]
      cases fs with
      | nil =>
        have hv := ihv v ('\x7d' :: rest)
          (by simp only [fuelPairs] at hf; omega)
          (fun _ _ => noDigitHead_cons _ (by decide))
        simp [skipWs, jsonWs, serPairsTail, hv]
      | cons q t =>
        obtain ⟨k2, v2⟩ := q
        have hv := ihv v (',' :: (serPairs ((k2, v2) :: t) ++ '\x7d' :: rest))
          (by simp only [fuelPairs] at hf; omega) (fun _ _ => noDigitHead_cons _ (by decide))
        have hrec := ihp k2 v2 t rest (by simp only [fuelPairs] at hf ⊢; omega)
        simp [skipWs, jsonWs, serPairsTail, hv, hrec]

mutual
theorem fuelVal_le : ∀ v : Json, fuelVal v ≤ (ser v).length
  | .null => by simp [fuelVal, ser]
  | .bool b => by cases b <;> simp [fuelVal, ser]
  | .num i => by
    have h1 : decDigits i.natAbs ≠ [] := decDigits_ne_nil _
    have h2 : 0 < (decDigits i.natAbs).length := List.length_pos.mpr h1
    by_cases hneg : i < 0 <;> simp [fuelVal, ser, serInt, hneg] <;> omega
  | .str s => by simp [fuelVal, ser, serStr]
  | .arr [] => by simp [fuelVal, fuelItems, ser, serList]
  | .arr (x :: t) => by
    have h := fuelItems_le x t
    simp only [fuelVal, ser, List.length_cons, List.length_append, List.length_singleton]
    omega
  | .obj [] => by simp [fuelVal, fuelPairs, ser, serPairs]
  | .obj ((k, v) :: t) => by
    have h := fuelPairs_le k v t
    simp only [fuelVal, ser, List.length_cons, List.length_append, List.length_singleton]
    omega
termination_by v => sizeOf v
theorem fuelItems_le : ∀ (x : Json) (xs : List Json),
    fuelItems (x :: xs) ≤ (serList (x :: xs)).length + 1
  | x, [] => by
    have h := fuelVal_le x
    simp only [fuelItems, serList]
    omega
  | x, y :: t => by
    have h1 := fuelVal_le x
    have h2 := fuelItems_le y t
    have e1 : fuelItems (x :: y :: t) = 1 + max (fuelVal x) (fuelItems (y :: t)) := rfl
    have e2 : serList (x :: y :: t) = ser x ++ ',' :: serList (y :: t) := rfl
    rw [e1, e2]
    simp only [List.length_append, List.length_cons]
    omega
termination_by x xs => 1 + sizeOf x + sizeOf xs
theorem fuelPairs_le : ∀ (k : Str) (v : Json) (fs : List (Str × Json)),
    fuelPairs ((k, v) :: fs) ≤ (serPairs ((k, v) :: fs)).length + 1
  | k, v, [] => by
    have h := fuelVal_le v
    simp only [fuelPairs, serPairs, List.length_append, List.length_cons]
    omega
  | k, v, (k2, v2) :: t => by
    have h1 := fuelVal_le v
    have h2 := fuelPairs_le k2 v2 t
    have e1 : fuelPairs ((k, v) :: (k2, v2) :: t) =
        1 + max (fuelVal v) (fuelPairs ((k2, v2) :: t)) := rfl
    have e2 : serPairs ((k, v) :: (k2, v2) :: t) =
        serStr k ++ ':' :: ser v ++ ',' :: serPairs ((k2, v2) :: t) := rfl
    rw [e1, e2]
    simp only [List.length_append, List.length_cons]
    omega
termination_by k v fs => 1 + sizeOf v + sizeOf fs
end

/-- Plain round trip: the model of `json.loads` recovers every serialized
JSON value. -/
theorem loads_ser (v : Json) : loads (ser v) = some v := by
  have hb : fuelVal v ≤ (ser v).length + 1 :=
    le_trans (fuelVal_le v) (by omega)
  have h := (roundTrip ((ser v).length + 1)).1 v [] hb (fun _ _ => rfl)
  rw [List.append_nil] at h
  simp [loads, h, skipWs]

theorem jsonWs_pySpace {c : Char} (h : jsonWs c = true) : pySpace c = true := by
  simp only [jsonWs, Bool.or_eq_true, decide_eq_true_eq] at h
  rcases h with ((h | h) | h) | h <;> subst h <;> decide

theorem pySpace_false_jsonWs {c : Char} (h : pySpace c = false) : jsonWs c = false := by
  cases hj : jsonWs c
  · rfl
  · exact absurd (jsonWs_pySpace hj) (by simp [h])

theorem digitB_not_pySpace {c : Char} (h : digitB c = true) : pySpace c = false := by
  simp only [digitB, Bool.and_eq_true, decide_eq_true_eq] at h
  simp only [pySpace, Bool.or_eq_false_iff, decide_eq_false_iff_not]
  refine ⟨⟨⟨⟨⟨?_, ?_⟩, ?_⟩, ?_⟩, ?_⟩, ?_⟩ <;> (rintro rfl; revert h; decide)

theorem decDigits_last (n : Nat) :
    ∃ c t, decDigits n = t ++ [c] ∧ digitB c = true := by
  rw [decDigits_unfold]
  by_cases h10 : n < 10
  · exact ⟨decChar n, [], by simp [h10], (decChar_val n h10).2⟩
  · exact ⟨decChar (n % 10), decDigits (n / 10), by simp [h10],
      (decChar_val (n % 10) (Nat.mod_lt _ (by omega))).2⟩

theorem ser_last (v : Json) :
    ∃ c t, ser v = t ++ [c] ∧ pySpace c = false := by
  cases v with
  | null => exact ⟨'l', ['n', 'u', 'l'], rfl, by decide⟩
  | bool b =>
    cases b with
    | true => exact ⟨'e', ['t', 'r', 'u'], rfl, by decide⟩
    | false => exact ⟨'e', ['f', 'a', 'l', 's'], rfl, by decide⟩
  | num i =>
    obtain ⟨c, t, hct, hc⟩ := decDigits_last i.natAbs
    by_cases hneg : i < 0
    · exact ⟨c, '-' :: t, by simp [ser, serInt, hneg, hct], digitB_not_pySpace hc⟩
    · exact ⟨c, t, by simp [ser, serInt, hneg, hct], digitB_not_pySpace hc⟩
  | str s =>
    exact ⟨'"', '"' :: escBody s, by simp [ser, serStr], by decide⟩
  | arr xs => exact ⟨']', '[' :: serList xs, by simp [ser], by decide⟩
  | obj fs => exact ⟨'\x7d', '\x7b' :: serPairs fs, by simp [ser], by decide⟩

theorem dropWhile_all_append (p : Char → Bool) (pre x : Str)
    (h : ∀ c ∈ pre, p c = true) :
    (pre ++ x).dropWhile p = x.dropWhile p := by
  induction pre with
  | nil => rfl
  | cons c t ih =>
    have hc : p c = true := h c (by simp)
    simp [List.dropWhile, hc, ih (fun a ha => h a (by simp [ha]))]

theorem dropWhile_head_false (p : Char → Bool) (c : Char) (t : Str) (h : p c = false) :
    (c :: t).dropWhile p = c :: t := by
  simp [List.dropWhile, h]

theorem stripL_append_of_head (pre s : Str) (c : Char) (t : Str)
    (hs : s = c :: t) (hc : pySpace c = false) :
    stripL (pre ++ s) = stripL pre ++ s := by
  induction pre with
  | nil =>
    subst hs
    simp [stripL, dropWhile_head_false pySpace c t hc]
  | cons a pr ih =>
    by_cases ha : pySpace a
    · simp only [stripL, List.cons_append, List.dropWhile] at ih ⊢
      simp [ha, ih]
    · simp only [stripL, List.cons_append, List.dropWhile] at ih ⊢
      simp [ha]

/-- Python strip of text that surrounds a block with non-whitespace first and
last characters: the block survives intact, the padding is stripped from the
outside only. -/
theorem pyStrip_mid (pre s post : Str)
    (c1 : Char) (t1 : Str) (hs1 : s = c1 :: t1) (h1 : pySpace c1 = false)
    (c2 : Char) (t2 : Str) (hs2 : s = t2 ++ [c2]) (h2 : pySpace c2 = false) :
    pyStrip (pre ++ s ++ post) = stripL pre ++ s ++ stripR post := by
  have step1 : (pre ++ (s ++ post)).dropWhile pySpace = stripL pre ++ (s ++ post) := by
    rw [show s ++ post = c1 :: (t1 ++ post) from by rw [hs1]; rfl]
    exact stripL_append_of_head pre _ c1 _ rfl h1
  have step2 : (post.reverse ++ (s.reverse ++ (stripL pre).reverse)).dropWhile pySpace =
      stripL post.reverse ++ (s.reverse ++ (stripL pre).reverse) := by
    rw [show s.reverse ++ (stripL pre).reverse = c2 :: (t2.reverse ++ (stripL pre).reverse)
      from by rw [hs2]; simp]
    exact stripL_append_of_head post.reverse _ c2 _ rfl h2
  show (((pre ++ s ++ post).dropWhile pySpace).reverse.dropWhile pySpace).reverse = _
  rw [List.append_assoc, step1]
  rw [show (stripL pre ++ (s ++ post)).reverse =
    post.reverse ++ (s.reverse ++ (stripL pre).reverse) from by simp]
  rw [step2]
  simp [stripR, stripL]

theorem ser_head_pySpace (v : Json) :
    ∃ c t, ser v = c :: t ∧ pySpace c = false := by
  cases v with
  | null => exact ⟨'n', _, rfl, by decide⟩
  | bool b =>
    cases b with
    | true => exact ⟨'t', _, rfl, by decide⟩
    | false => exact ⟨'f', _, rfl, by decide⟩
  | num i =>
    by_cases hneg : i < 0
    · refine ⟨'-', decDigits i.natAbs, ?_, by decide⟩
      show serInt i = _
      simp [serInt, hneg]
    · obtain ⟨c, t, hct, hc⟩ := decDigits_head i.natAbs
      refine ⟨c, t, ?_, digitB_not_pySpace hc⟩
      show serInt i = _
      rw [serInt, if_neg hneg, hct]
  | str s => exact ⟨'"', escBody s ++ ['"'], rfl, by decide⟩
  | arr xs => exact ⟨'[', serList xs ++ [']'], rfl, by decide⟩
  | obj fs => exact ⟨'\x7b', serPairs fs ++ ['\x7d'], rfl, by decide⟩

/-- Stripping serialized output is the identity. -/
theorem pyStrip_ser (v : Json) : pyStrip (ser v) = ser v := by
  obtain ⟨c1, t1, hs1, h1⟩ := ser_head_pySpace v
  obtain ⟨c2, t2, hs2, h2⟩ := ser_last v
  have h := pyStrip_mid [] (ser v) [] c1 t1 hs1 h1 c2 t2 hs2 h2
  simpa [stripL, stripR] using h

/-! ### When the direct parse of prose fails -/
theorem parseVal_succ (f : Nat) (s : Str) :
    parseVal (f + 1) s =
      match skipWs s with
      | 'n' :: 'u' :: 'l' :: 'l' :: r => some (.null, r)
      | 't' :: 'r' :: 'u' :: 'e' :: r => some (.bool true, r)
      | 'f' :: 'a' :: 'l' :: 's' :: 'e' :: r => some (.bool false, r)
      | '"' :: r =>
        (match parseStrBody r with
        | some (cs, r2) => some (.str cs, r2)
        | none => none)
      | '[' :: r =>
        (match skipWs r with
        | ']' :: r2 => some (.arr [], r2)
        | s2 =>
          match parseItems f s2 with
          | some (xs, r2) => some (.arr xs, r2)
          | none => none)
      | '\x7b' :: r =>
        (match skipWs r with
        | '\x7d' :: r2 => some (.obj [], r2)
        | s2 =>
          match parsePairs f s2 with
          | some (fs, r2) => some (.obj fs, r2)
          | none => none)
      | '-' :: r =>
        (match parseDigits r with
        | some (n, r2) => some (.num (-(n : Int)), r2)
        | none => none)
      | c :: r =>
        if digitB c then
          match parseDigits (c :: r) with
          | some (n, r2) => some (.num (n : Int), r2)
          | none => none
        else none
      | [] => none := rfl

theorem skipWs_decomp (s : Str) :
    ∃ w, s = w ++ skipWs s ∧ ∀ a ∈ w, jsonWs a = true := by
  induction s with
  | nil => exact ⟨[], rfl, by simp⟩
  | cons c t ih =>
    by_cases hc : jsonWs c
    · obtain ⟨w, hw, hall⟩ := ih
      refine ⟨c :: w, ?_, ?_⟩
      · simp [skipWs, hc]
        exact hw
      · intro a ha
        rcases List.mem_cons.mp ha with rfl | ha
        · exact hc
        · exact hall a ha
    · exact ⟨[], by simp [skipWs, hc], by simp⟩

theorem skipWs_nil_all_ws {s : Str} (h : skipWs s = []) : ∀ a ∈ s, jsonWs a = true := by
  induction s with
  | nil => simp
  | cons c t ih =>
    by_cases hc : jsonWs c
    · simp only [skipWs, if_pos hc] at h
      intro a ha
      rcases List.mem_cons.mp ha with rfl | ha
      · exact hc
      · exact ih h a ha
    · simp [skipWs, hc] at h

theorem skipWs_ne_nil_of_mem {s : Str} {a : Char} (ha : a ∈ s) (hb : jsonWs a = false) :
    skipWs s ≠ [] := by
  intro h
  rw [skipWs_nil_all_ws h a ha] at hb
  exact absurd hb (by simp)

theorem parseDigits_inv {s : Str} {n : Nat} {r : Str} (h : parseDigits s = some (n, r)) :
    s = s.takeWhile digitB ++ r ∧ ∀ a ∈ s.takeWhile digitB, digitB a = true := by
  have h2 : (if (s.takeWhile digitB).isEmpty then none
      else some (digitsVal (s.takeWhile digitB), s.dropWhile digitB)) = some (n, r) := h
  by_cases he : (s.takeWhile digitB).isEmpty
  · rw [if_pos he] at h2
    exact absurd h2 (by simp)
  · rw [if_neg he] at h2
    have hr : r = s.dropWhile digitB := by
      injection h2 with h3
      injection h3 with _ h4
      exact h4.symm
    subst hr
    exact ⟨(List.takeWhile_append_dropWhile digitB s).symm,
      fun a ha => List.mem_takeWhile_imp ha⟩

/-- If a parse of the whole input succeeds and the first significant
character opens neither a string, an array, nor an object, then the input
contains no brace or bracket at all: scalars consume only whitespace,
letters, digits and the sign, and acceptance forces the remainder to be
whitespace. -/
theorem loads_no_bracket {s : Str} {w : Json} {c : Char} {t : Str}
    (hhead : skipWs s = c :: t) (hq : c ≠ '"') (hlb : c ≠ '[') (hob : c ≠ '\x7b')
    (hload : loads s = some w) {b : Char}
    (hb : b = '\x7b' ∨ b = '[') (hmem : b ∈ s) : False := by
  obtain ⟨wpre, hwpre, hallws⟩ := skipWs_decomp s
  have hbws : jsonWs b = false := by rcases hb with rfl | rfl <;> decide
  have hbmem : b ∈ c :: t := by
    rw [hwpre, List.mem_append] at hmem
    rcases hmem with hm | hm
    · exact absurd (hallws b hm) (by simp [hbws])
    · rw [hhead] at hm; exact hm
  unfold loads at hload
  cases hpv : parseVal (s.length + 1) s with
  | none => rw [hpv] at hload; exact absurd hload (by simp)
  | some p =>
    rw [hpv] at hload
    obtain ⟨w2, r⟩ := p
    have hload2 : (if skipWs r = [] then some w2 else none) = some w := hload
    have hrws : skipWs r = [] := by
      by_cases hr : skipWs r = []
      · exact hr
      · rw [if_neg hr] at hload2; exact absurd hload2 (by simp)
    have hrall := skipWs_nil_all_ws hrws
    cases hL : s.length with
    | zero =>
      rw [List.length_eq_zero.mp hL] at hhead
      exact absurd hhead (by simp [skipWs])
    | succ f =>
      rw [hL, parseVal_succ, hhead] at hpv
      split at hpv
      -- null literal
      · rename_i r0 heq
        injection hpv with hp
        injection hp with hw2 hr2
        rw [heq, hr2] at hbmem
        have hfin : b ∈ r := by rcases hb with rfl | rfl <;> simpa using hbmem
        exact absurd (hrall _ hfin) (by simp [hbws])
      -- true literal
      · rename_i r0 heq
        injection hpv with hp
        injection hp with hw2 hr2
        rw [heq, hr2] at hbmem
        have hfin : b ∈ r := by rcases hb with rfl | rfl <;> simpa using hbmem
        exact absurd (hrall _ hfin) (by simp [hbws])
      -- false literal
      · rename_i r0 heq
        injection hpv with hp
        injection hp with hw2 hr2
        rw [heq, hr2] at hbmem
        have hfin : b ∈ r := by rcases hb with rfl | rfl <;> simpa using hbmem
        exact absurd (hrall _ hfin) (by simp [hbws])
      -- string
      · rename_i r0 heq
        rw [List.cons.injEq] at heq
        exact hq heq.1
      -- array
      · rename_i r0 heq
        rw [List.cons.injEq] at heq
        exact hlb heq.1
      -- object
      · rename_i r0 heq
        rw [List.cons.injEq] at heq
        exact hob heq.1
      -- leading minus
      · rename_i r0 heq
        rw [List.cons.injEq] at heq
        obtain ⟨hc1, ht1⟩ := heq
        split at hpv
        · rename_i n r2 heq2
          injection hpv with hp
          injection hp with hw2 hr2
          obtain ⟨hsplit, hdig⟩ := parseDigits_inv heq2
          rw [hc1, ht1, hsplit, hr2] at hbmem
          rcases List.mem_cons.mp hbmem with hEq | hbm
          · rcases hb with rfl | rfl <;> exact absurd hEq (by decide)
          · rcases List.mem_append.mp hbm with h | h
            · have hd := hdig b h
              rcases hb with rfl | rfl <;> exact absurd hd (by decide)
            · exact absurd (hrall _ h) (by simp [hbws])
        · exact absurd hpv (by simp)
      -- variable head: digit or rejection
      · rename_i c0 r0 heq
        split at hpv
        · split at hpv
          · rename_i hdg n r2 heq2
            injection hpv with hp
            injection hp with hw2 hr2
            obtain ⟨hsplit, hdig⟩ := parseDigits_inv heq2
            rw [heq, hsplit, hr2] at hbmem
            rw [List.mem_append] at hbmem
            rcases hbmem with h | h
            · have hd := hdig b h
              rcases hb with rfl | rfl <;> exact absurd hd (by decide)
            · exact absurd (hrall _ h) (by simp [hbws])
          · exact absurd hpv (by simp)
        · exact absurd hpv (by simp)
      -- empty after whitespace: contradicts the cons shape
      · rename_i heq
        exact absurd heq (by simp)

/-! ### Fenced code blocks around serialized output -/
/-- A backtick never parses, so a fenced response always falls past the
direct-parse strategy. -/
theorem loads_backtick (t : Str) : loads ('\x60' :: t) = none := rfl

theorem fenceSplit_no_tick {s : Str} (h : '\x60' ∉ s) : fenceSplit s = none := by
  induction s with
  | nil => rfl
  | cons c t ih =>
    have hc : c ≠ '\x60' := fun hcc => h (hcc ▸ List.mem_cons_self c t)
    have hlead : leadSeg fence (c :: t) = false := by
      simp only [fence, leadSeg, Bool.and_eq_false_iff, decide_eq_false_iff_not]
      exact Or.inl (Ne.symm hc)
    rw [fenceSplit, hlead]
    simp only [Bool.false_eq_true, if_false]
    rw [ih (fun hm => h (List.mem_cons_of_mem c hm))]

theorem fencedInterior_no_tick {s : Str} (h : '\x60' ∉ s) : fencedInterior s = none := by
  unfold fencedInterior
  cases hL : s.length with
  | zero => rfl
  | succ f =>
    show fencedAttempt (f + 1) s = none
    unfold fencedAttempt
    rw [fenceSplit_no_tick h]

theorem fenceSplit_found {a : Str} (r : Str) (h : '\x60' ∉ a) :
    fenceSplit (a ++ '\x60' :: '\x60' :: '\x60' :: r) = some (a, r) := by
  induction a with
  | nil =>
    show fenceSplit ('\x60' :: '\x60' :: '\x60' :: r) = some ([], r)
    rw [fenceSplit]
    simp [fence, leadSeg]
  | cons c t ih =>
    have hc : c ≠ '\x60' := fun hcc => h (hcc ▸ List.mem_cons_self c t)
    have hlead : leadSeg fence (c :: (t ++ '\x60' :: '\x60' :: '\x60' :: r)) = false := by
      simp only [fence, leadSeg, Bool.and_eq_false_iff, decide_eq_false_iff_not]
      exact Or.inl (Ne.symm hc)
    show fenceSplit (c :: (t ++ '\x60' :: '\x60' :: '\x60' :: r)) = _
    rw [fenceSplit, hlead]
    simp only [Bool.false_eq_true, if_false]
    rw [ih (fun hm => h (List.mem_cons_of_mem c hm))]

theorem fencedInterior_wrap (s : Str) (ht : '\x60' ∉ s)
    (c1 : Char) (t1 : Str) (hs1 : s = c1 :: t1) (h1 : pySpace c1 = false) :
    fencedInterior (fenceWrap s) = some (s ++ ['\n']) := by
  have hlen : (fenceWrap s).length = s.length + 12 := by
    simp [fenceWrap]
  have hsplit1 : fenceSplit (fenceWrap s) =
      some ([], 'j' :: 's' :: 'o' :: 'n' :: '\n' :: (s ++ '\n' :: '\x60' :: '\x60' :: '\x60' :: [])) := by
    have := fenceSplit_found
      (a := []) ('j' :: 's' :: 'o' :: 'n' :: '\n' :: (s ++ '\n' :: '\x60' :: '\x60' :: '\x60' :: []))
      (by simp)
    simpa [fenceWrap] using this
  have hdrop : ('j' :: 's' :: 'o' :: 'n' :: '\n' ::
      (s ++ '\n' :: '\x60' :: '\x60' :: '\x60' :: [])).drop 4 =
      '\n' :: (s ++ '\n' :: '\x60' :: '\x60' :: '\x60' :: []) := rfl
  have hdw : ('\n' :: (s ++ '\n' :: '\x60' :: '\x60' :: '\x60' :: [])).dropWhile pySpace =
      s ++ '\n' :: '\x60' :: '\x60' :: '\x60' :: [] := by
    rw [show ('\n' :: (s ++ '\n' :: '\x60' :: '\x60' :: '\x60' :: [])).dropWhile pySpace =
      (s ++ '\n' :: '\x60' :: '\x60' :: '\x60' :: []).dropWhile pySpace from by
        simp [List.dropWhile, pySpace]]
    rw [hs1]
    exact dropWhile_head_false pySpace c1 _ h1
  have hsplit2 : fenceSplit (s ++ '\n' :: '\x60' :: '\x60' :: '\x60' :: []) =
      some (s ++ ['\n'], []) := by
    have hnt : '\x60' ∉ s ++ ['\n'] := by
      intro hm
      rcases List.mem_append.mp hm with hm | hm
      · exact ht hm
      · simp at hm
    have := fenceSplit_found (a := s ++ ['\n']) [] hnt
    simpa using this
  rw [fencedInterior, hlen]
  show fencedAttempt (s.length + 11 + 1) (fenceWrap s) = some (s ++ ['\n'])
  unfold fencedAttempt
  rw [hsplit1]
  have htag : leadSeg ['j', 's', 'o', 'n']
      ('j' :: 's' :: 'o' :: 'n' :: '\n' :: (s ++ '\n' :: '\x60' :: '\x60' :: '\x60' :: [])) =
      true := by simp [leadSeg]
  simp only [htag, if_true, hdrop, hdw, hsplit2]

/-! ### The first-to-last delimiter span around serialized output -/
theorem findIdx_cons_map (p : Char → Bool) (x : Char) (xs : Str) :
    List.findIdx? p (x :: xs) = if p x then some 0 else (List.findIdx? p xs).map (· + 1) := by
  simp [List.findIdx?_cons]

theorem firstIdx_here {P : Str} {c : Char} (X : Str) (h : ∀ a ∈ P, a ≠ c) :
    firstIdx c (P ++ c :: X) = some P.length := by
  induction P with
  | nil =>
    show List.findIdx? (· = c) (c :: X) = some 0
    rw [findIdx_cons_map]
    simp
  | cons a t ih =>
    have ha : decide (a = c) = false := by simp [h a (List.mem_cons_self a t)]
    show List.findIdx? (· = c) (a :: (t ++ c :: X)) = some (t.length + 1)
    rw [findIdx_cons_map]
    simp only [ha, Bool.false_eq_true, if_false]
    rw [show List.findIdx? (· = c) (t ++ c :: X) = some t.length from
      ih (fun b hb => h b (List.mem_cons_of_mem a hb))]
    rfl

theorem firstIdx_none {s : Str} {c : Char} (h : ∀ a ∈ s, a ≠ c) : firstIdx c s = none := by
  induction s with
  | nil => rfl
  | cons a t ih =>
    have ha : decide (a = c) = false := by simp [h a (List.mem_cons_self a t)]
    show List.findIdx? (· = c) (a :: t) = none
    rw [findIdx_cons_map]
    simp only [ha, Bool.false_eq_true, if_false]
    rw [show List.findIdx? (· = c) t = none from ih (fun b hb => h b (List.mem_cons_of_mem a hb))]
    rfl

theorem lastIdx_eq {P M Q : Str} {c : Char} (h : ∀ a ∈ Q, a ≠ c) :
    lastIdx c (P ++ (M ++ [c]) ++ Q) = some (P.length + M.length) := by
  have hrev : (P ++ (M ++ [c]) ++ Q).reverse = Q.reverse ++ c :: (M.reverse ++ P.reverse) := by
    simp
  have hfi : firstIdx c (Q.reverse ++ c :: (M.reverse ++ P.reverse)) = some Q.reverse.length :=
    firstIdx_here _ (fun a ha => h a (List.mem_reverse.mp ha))
  unfold lastIdx
  rw [hrev]
  rw [show List.findIdx? (· = c) (Q.reverse ++ c :: (M.reverse ++ P.reverse)) =
    some Q.reverse.length from hfi]
  rw [Option.map_some']
  simp only [Option.some.injEq, List.length_append, List.length_reverse, List.length_cons,
    List.length_nil]
  omega

theorem sliceIncl_mid (P S Q : Str) (hS : 0 < S.length) :
    sliceIncl (P ++ S ++ Q) P.length (P.length + (S.length - 1)) = S := by
  unfold sliceIncl
  rw [List.append_assoc, List.drop_left]
  rw [show P.length + (S.length - 1) - P.length + 1 = S.length from by omega]
  exact List.take_left S Q

theorem spanTry_found {P Q : Str} {v : Json} {a b : Char} {m : Str}
    (hser : ser v = a :: m ++ [b])
    (hPa : ∀ x ∈ P, x ≠ a) (hQb : ∀ x ∈ Q, x ≠ b) :
    spanTry (P ++ ser v ++ Q) a b = some v := by
  have hshape1 : P ++ ser v ++ Q = P ++ a :: (m ++ [b] ++ Q) := by
    simp [hser]
  have hfi : firstIdx a (P ++ ser v ++ Q) = some P.length := by
    rw [hshape1]
    exact firstIdx_here _ hPa
  have hshape2 : P ++ ser v ++ Q = P ++ ((a :: m) ++ [b]) ++ Q := by
    simp [hser]
  have hli : lastIdx b (P ++ ser v ++ Q) = some (P.length + (m.length + 1)) := by
    rw [hshape2]
    have := lastIdx_eq (P := P) (M := a :: m) (Q := Q) hQb
    simpa using this
  have hlen : (ser v).length = m.length + 2 := by simp [hser]
  have hslice : sliceIncl (P ++ ser v ++ Q) P.length (P.length + (m.length + 1)) = ser v := by
    have := sliceIncl_mid P (ser v) Q (by omega)
    rwa [show (ser v).length - 1 = m.length + 1 from by omega] at this
  unfold spanTry
  rw [hfi, hli]
  show (if P.length < P.length + (m.length + 1)
    then loads (sliceIncl (P ++ ser v ++ Q) P.length (P.length + (m.length + 1)))
    else none) = some v
  rw [if_pos (by omega), hslice, loads_ser]

theorem spanStep_obj {P Q : Str} (fs : List (Str × Json))
    (hP : ∀ x ∈ P, x ≠ '\x7b') (hQ : ∀ x ∈ Q, x ≠ '\x7d') :
    spanStep (P ++ ser (.obj fs) ++ Q) = some (.obj fs) := by
  unfold spanStep
  rw [spanTry_found (v := .obj fs) (a := '\x7b') (b := '\x7d') (m := serPairs fs) rfl hP hQ]

theorem spanStep_arr {P Q : Str} (xs : List Json)
    (hnb : '\x7b' ∉ P ++ ser (.arr xs) ++ Q)
    (hP : ∀ x ∈ P, x ≠ '[') (hQ : ∀ x ∈ Q, x ≠ ']') :
    spanStep (P ++ ser (.arr xs) ++ Q) = some (.arr xs) := by
  unfold spanStep
  rw [show spanTry (P ++ ser (.arr xs) ++ Q) '\x7b' '\x7d' = none from by
    unfold spanTry
    rw [firstIdx_none (fun x hx h => hnb (by rw [← h]; exact hx))]]
  rw [spanTry_found (v := .arr xs) (a := '[') (b := ']') (m := serList xs) rfl hP hQ]

/-- Acceptance fails for serialized output followed by significant trailing
text, for any value that is not a bare number. -/
theorem loads_ser_append_ne (v : Json) (post : Str) (hnn : ∀ i : Int, v ≠ .num i)
    {a : Char} (ha : a ∈ post) (haws : jsonWs a = false) :
    loads (ser v ++ post) = none := by
  have hfuel : fuelVal v ≤ (ser v ++ post).length + 1 := by
    have := fuelVal_le v
    simp only [List.length_append]
    omega
  have hpv := (roundTrip ((ser v ++ post).length + 1)).1 v post hfuel
    (fun i hv => absurd hv (hnn i))
  unfold loads
  rw [hpv]
  show (if skipWs post = [] then some v else none) = none
  rw [if_neg (skipWs_ne_nil_of_mem ha haws)]

theorem head_dropWhile_false {p : Char → Bool} {l : Str} {c : Char} {t : Str}
    (h : l.dropWhile p = c :: t) : p c = false := by
  induction l with
  | nil => exact absurd h (by simp)
  | cons a r ih =>
    by_cases ha : p a
    · rw [List.dropWhile_cons_of_pos ha] at h
      exact ih h
    · rw [List.dropWhile_cons_of_neg ha] at h
      injection h with h1 _
      rw [← h1]
      exact Bool.not_eq_true _ ▸ ha

theorem mem_stripL {s : Str} {a : Char} (h : a ∈ stripL s) : a ∈ s :=
  (List.dropWhile_sublist pySpace (l := s)).mem h

theorem mem_stripR {s : Str} {a : Char} (h : a ∈ stripR s) : a ∈ s := by
  unfold stripR at h
  rw [List.mem_reverse] at h
  exact List.mem_reverse.mp ((List.dropWhile_sublist pySpace (l := s.reverse)).mem h)

theorem stripR_last {s : Str} (h : stripR s ≠ []) :
    ∃ c M, stripR s = M ++ [c] ∧ pySpace c = false := by
  cases hd : s.reverse.dropWhile pySpace with
  | nil => exact absurd (by simp [stripR, hd]) h
  | cons c t =>
    exact ⟨c, t.reverse, by simp [stripR, hd], head_dropWhile_false hd⟩

/-! ### Top-level behaviour of the response parser -/
theorem parseJsonResponse_eq (t : Str) :
    parseJsonResponse t =
      match loads (pyStrip t) with
      | some v => some v
      | none =>
        match
          (match fencedInterior (pyStrip t) with
          | some inner => loads (pyStrip inner)
          | none => none)
        with
        | some v => some v
        | none => spanStep (pyStrip t) := rfl

theorem parseJsonResponse_ser (v : Json) : parseJsonResponse (ser v) = some v := by
  rw [parseJsonResponse_eq, pyStrip_ser, loads_ser]

theorem parseJsonResponse_fenced (v : Json) (ht : '\x60' ∉ ser v) :
    parseJsonResponse (fenceWrap (ser v)) = some v := by
  obtain ⟨c1, t1, hs1, h1⟩ := ser_head_pySpace v
  obtain ⟨c2, t2, hs2, h2⟩ := ser_last v
  have hM : fenceWrap (ser v) =
      ('\x60' :: '\x60' :: '\x60' :: 'j' :: 's' :: 'o' :: 'n' :: '\n' ::
        (ser v ++ ['\n', '\x60', '\x60'])) ++ ['\x60'] := by
    simp [fenceWrap]
  have hstrip : pyStrip (fenceWrap (ser v)) = fenceWrap (ser v) := by
    have h := pyStrip_mid [] (fenceWrap (ser v)) [] '\x60'
      ('\x60' :: '\x60' :: 'j' :: 's' :: 'o' :: 'n' :: '\n' ::
        (ser v ++ '\n' :: '\x60' :: '\x60' :: '\x60' :: [])) rfl (by decide)
      '\x60'
      ('\x60' :: '\x60' :: '\x60' :: 'j' :: 's' :: 'o' :: 'n' :: '\n' ::
        (ser v ++ ['\n', '\x60', '\x60'])) hM (by decide)
    simpa [stripL, stripR] using h
  have hloads : loads (fenceWrap (ser v)) = none := loads_backtick _
  have hint := fencedInterior_wrap (ser v) ht c1 t1 hs1 h1
  have hstrip2 : pyStrip (ser v ++ ['\n']) = ser v := by
    have h := pyStrip_mid [] (ser v) ['\n'] c1 t1 hs1 h1 c2 t2 hs2 h2
    simpa [stripL, stripR, List.dropWhile, pySpace] using h
  simp only [parseJsonResponse_eq, hstrip, hloads, hint, hstrip2, loads_ser]

theorem parseJsonResponse_prose (v : Json) (pre post : Str)
    (hv : (∃ fs, v = .obj fs) ∨ (∃ xs, v = .arr xs ∧ '\x7b' ∉ ser v))
    (htick : '\x60' ∉ ser v)
    (hpre : ∀ a ∈ pre, a ≠ '\x7b' ∧ a ≠ '\x7d' ∧ a ≠ '[' ∧ a ≠ ']' ∧ a ≠ '"' ∧ a ≠ '\x60')
    (hpost : ∀ a ∈ post, a ≠ '\x7b' ∧ a ≠ '\x7d' ∧ a ≠ '[' ∧ a ≠ ']' ∧ a ≠ '"' ∧ a ≠ '\x60') :
    parseJsonResponse (pre ++ ser v ++ post) = some v := by
  obtain ⟨c1, t1, hs1, h1⟩ := ser_head_pySpace v
  obtain ⟨c2, t2, hs2, h2⟩ := ser_last v
  have hstrip := pyStrip_mid pre (ser v) post c1 t1 hs1 h1 c2 t2 hs2 h2
  have hPmem : ∀ a ∈ stripL pre,
      a ≠ '\x7b' ∧ a ≠ '\x7d' ∧ a ≠ '[' ∧ a ≠ ']' ∧ a ≠ '"' ∧ a ≠ '\x60' :=
    fun a ha => hpre a (mem_stripL ha)
  have hQmem : ∀ a ∈ stripR post,
      a ≠ '\x7b' ∧ a ≠ '\x7d' ∧ a ≠ '[' ∧ a ≠ ']' ∧ a ≠ '"' ∧ a ≠ '\x60' :=
    fun a ha => hpost a (mem_stripR ha)
  have hnn : ∀ i : Int, v ≠ .num i := by
    rcases hv with ⟨fs, rfl⟩ | ⟨xs, rfl, -⟩ <;> exact fun i h => Json.noConfusion h
  have hbr : ∃ b, (b = '\x7b' ∨ b = '[') ∧ b ∈ ser v := by
    rcases hv with ⟨fs, rfl⟩ | ⟨xs, rfl, -⟩
    · exact ⟨'\x7b', Or.inl rfl, by rw [show ser (.obj fs) =
        '\x7b' :: (serPairs fs ++ ['\x7d']) from rfl]; exact List.mem_cons_self _ _⟩
    · exact ⟨'[', Or.inr rfl, by rw [show ser (.arr xs) =
        '[' :: (serList xs ++ [']']) from rfl]; exact List.mem_cons_self _ _⟩
  by_cases hPQ : stripL pre = [] ∧ stripR post = []
  · rw [parseJsonResponse_eq, hstrip, hPQ.1, hPQ.2]
    simp only [List.nil_append, List.append_nil, loads_ser]
  · have hloads : loads (stripL pre ++ ser v ++ stripR post) = none := by
      cases hPe : stripL pre with
      | cons c t =>
        have hcw : pySpace c = false := head_dropWhile_false (l := pre) hPe
        have hcs := hPmem c (by rw [hPe]; exact List.mem_cons_self c t)
        have hshape : c :: t ++ ser v ++ stripR post =
            c :: (t ++ (ser v ++ stripR post)) := by simp
        obtain ⟨b, hb, hbm⟩ := hbr
        cases hl : loads (c :: t ++ ser v ++ stripR post) with
        | none => rfl
        | some w =>
          exfalso
          refine loads_no_bracket (c := c) (t := t ++ (ser v ++ stripR post))
            ?_ hcs.2.2.2.2.1 hcs.2.2.1 hcs.1 hl hb ?_
          · rw [hshape]
            exact skipWs_not_ws _ (pySpace_false_jsonWs hcw)
          · rw [hshape]
            exact List.mem_cons_of_mem c (List.mem_append_right t (List.mem_append_left _ hbm))
      | nil =>
        have hQne : stripR post ≠ [] := fun hq => hPQ ⟨hPe, hq⟩
        obtain ⟨cq, M, hQeq, hcq⟩ := stripR_last hQne
        have hcqm : cq ∈ stripR post := by
          rw [hQeq]
          exact List.mem_append_right M (List.mem_cons_self cq [])
        rw [List.nil_append]
        exact loads_ser_append_ne v (stripR post) hnn hcqm (pySpace_false_jsonWs hcq)
    have hfence : fencedInterior (stripL pre ++ ser v ++ stripR post) = none := by
      apply fencedInterior_no_tick
      intro hm
      rcases List.mem_append.mp hm with hm | hm
      · rcases List.mem_append.mp hm with hm | hm
        · exact (hPmem _ hm).2.2.2.2.2 rfl
        · exact htick hm
      · exact (hQmem _ hm).2.2.2.2.2 rfl
    have hspan : spanStep (stripL pre ++ ser v ++ stripR post) = some v := by
      rcases hv with ⟨fs, rfl⟩ | ⟨xs, rfl, hnb⟩
      · exact spanStep_obj fs (fun x hx => (hPmem x hx).1) (fun x hx => (hQmem x hx).2.1)
      · apply spanStep_arr xs
        · intro hm
          rcases List.mem_append.mp hm with hm | hm
          · rcases List.mem_append.mp hm with hm | hm
            · exact (hPmem _ hm).1 rfl
            · exact hnb hm
          · exact (hQmem _ hm).1 rfl
        · exact fun x hx => (hPmem x hx).2.2.1
        · exact fun x hx => (hQmem x hx).2.2.2.1
    rw [parseJsonResponse_eq, hstrip, hloads, hfence]
    exact hspan

/-! ### Claim C1 -/
/-- C1 (amended): `_parse_json_response` attempts, in order, a direct parse
of the stripped text, the interior of the first fenced code block, and the
first-to-last delimiter span, and the first success wins; when every
strategy fails it returns the distinct parse error (`none`, the model of
`ValueError`, as opposed to the `Except.error` transport failures used for
backends elsewhere in this file). For every JSON value `v` the parser
returns `v` when the response is `v` serialized plainly; it returns `v`
when the response is `v` wrapped in a ```` ```json ```` fenced block,
provided the serialization contains no backtick; and it returns `v` when
`v` is embedded in surrounding prose, provided `v` is an object, or an
array whose serialization contains no opening brace, the serialization
contains no backtick, and the prose contains no brace, bracket, quote or
backtick characters. (The original claim, which promised the prose and
fenced recovery for every value unconditionally, is refuted by
`C1_response_parser_counterexample`.) -/
theorem C1_response_parser_amended :
    (∀ t w, loads (pyStrip t) = some w → parseJsonResponse t = some w) ∧
    (∀ t i w, loads (pyStrip t) = none → fencedInterior (pyStrip t) = some i →
      loads (pyStrip i) = some w → parseJsonResponse t = some w) ∧
    (∀ t w, loads (pyStrip t) = none →
      (∀ i, fencedInterior (pyStrip t) = some i → loads (pyStrip i) = none) →
      spanStep (pyStrip t) = some w → parseJsonResponse t = some w) ∧
    (∀ t, loads (pyStrip t) = none →
      (∀ i, fencedInterior (pyStrip t) = some i → loads (pyStrip i) = none) →
      spanStep (pyStrip t) = none → parseJsonResponse t = none) ∧
    (∀ v : Json, parseJsonResponse (ser v) = some v) ∧
    (∀ v : Json, '\x60' ∉ ser v → parseJsonResponse (fenceWrap (ser v)) = some v) ∧
    (∀ (v : Json) (pre post : Str),
      ((∃ fs, v = .obj fs) ∨ (∃ xs, v = .arr xs ∧ '\x7b' ∉ ser v)) →
      '\x60' ∉ ser v →
      (∀ a ∈ pre, a ≠ '\x7b' ∧ a ≠ '\x7d' ∧ a ≠ '[' ∧ a ≠ ']' ∧ a ≠ '"' ∧ a ≠ '\x60') →
      (∀ a ∈ post, a ≠ '\x7b' ∧ a ≠ '\x7d' ∧ a ≠ '[' ∧ a ≠ ']' ∧ a ≠ '"' ∧ a ≠ '\x60') →
      parseJsonResponse (pre ++ ser v ++ post) = some v) := by
  refine ⟨?_, ?_, ?_, ?_, parseJsonResponse_ser, parseJsonResponse_fenced,
    parseJsonResponse_prose⟩
  · intro t w h
    rw [parseJsonResponse_eq, h]
  · intro t i w h1 h2 h3
    simp only [parseJsonResponse_eq, h1, h2, h3]
  · intro t w h1 h2 h3
    cases hfi : fencedInterior (pyStrip t) with
    | none => simp only [parseJsonResponse_eq, h1, hfi, h3]
    | some i => simp only [parseJsonResponse_eq, h1, hfi, h2 i hfi, h3]
  · intro t h1 h2 h3
    cases hfi : fencedInterior (pyStrip t) with
    | none => simp only [parseJsonResponse_eq, h1, hfi, h3]
    | some i => simp only [parseJsonResponse_eq, h1, hfi, h2 i hfi, h3]

/-- C1 counterexample: the claim as frozen asserts that for every JSON
value `v`, the parser returns `v` when the response is `v` embedded in
surrounding prose. For the number `5` in the prose sentence below — which
is exactly that embedding — the parser raises the parse error instead
(no strategy extracts a bare scalar from prose), so the claim is false as
stated. -/
theorem C1_response_parser_counterexample :
    "The answer is ".toList ++ ser (Json.num 5) ++ ".".toList =
      "The answer is 5.".toList ∧
    parseJsonResponse ("The answer is 5.".toList) = none ∧
    parseJsonResponse ("The answer is 5.".toList) ≠ some (Json.num 5) := by
  refine ⟨rfl, rfl, ?_⟩
  intro h
  rw [show parseJsonResponse ("The answer is 5.".toList) = none from rfl] at h
  exact Option.noConfusion h

/-- C1 witness: the amended theorem applied at a concrete object, plainly,
fenced, and embedded in prose. -/
theorem C1_response_parser_witness :
    parseJsonResponse (ser (Json.obj [("ok".toList, Json.bool true)])) =
      some (Json.obj [("ok".toList, Json.bool true)]) ∧
    parseJsonResponse (fenceWrap (ser (Json.obj [("ok".toList, Json.bool true)]))) =
      some (Json.obj [("ok".toList, Json.bool true)]) ∧
    parseJsonResponse ("Sure, here it is: ".toList ++
        ser (Json.obj [("ok".toList, Json.bool true)]) ++ " Hope that helps.".toList) =
      some (Json.obj [("ok".toList, Json.bool true)]) :=
  ⟨C1_response_parser_amended.2.2.2.2.1 (Json.obj [("ok".toList, Json.bool true)]),
   C1_response_parser_amended.2.2.2.2.2.1 (Json.obj [("ok".toList, Json.bool true)])
     (by decide),
   C1_response_parser_amended.2.2.2.2.2.2 (Json.obj [("ok".toList, Json.bool true)])
     ("Sure, here it is: ".toList) (" Hope that helps.".toList)
     (Or.inl ⟨[("ok".toList, Json.bool true)], rfl⟩) (by decide) (by decide) (by decide)⟩

theorem pySplitNl_no_newline {s : Str} (h : '\n' ∉ s) : pySplitNl s = [s] := by
  induction s with
  | nil => rfl
  | cons c t ih =>
    have hc : c ≠ '\n' := fun hcc => h (hcc ▸ List.mem_cons_self c t)
    rw [pySplitNl, if_neg hc, ih (fun hm => h (List.mem_cons_of_mem c hm))]

theorem utf8Len_replicate (n : Nat) (c : Char) :
    utf8Len (List.replicate n c) = n * c.utf8Size := by
  simp [utf8Len, List.map_replicate, List.sum_replicate, smul_eq_mul]

/-- A single line whose character count fits the limit but whose UTF-8
size exceeds it is returned unchanged as one oversized chunk: the
hard-truncation slice `paragraph[:max_bytes]` counts characters, not
bytes. -/
theorem chunkText_single_long_line (n maxB : Nat) (c : Char) (hc : c ≠ '\n')
    (hn : n ≤ maxB) (hover : maxB < n * c.utf8Size) :
    chunkText (List.replicate n c) maxB = [List.replicate n c] ∧
      maxB < utf8Len (List.replicate n c) := by
  have hlen : utf8Len (List.replicate n c) = n * c.utf8Size := utf8Len_replicate n c
  have hn0 : n ≠ 0 := by
    rintro rfl
    simp at hover
  have hnn : List.replicate n c ≠ [] := by
    intro h
    have hlen2 := congrArg List.length h
    simp at hlen2
    exact hn0 hlen2
  constructor
  · have hstep : chunkStep maxB ([], []) (List.replicate n c) =
        ([], (List.replicate n c).take maxB) := by
      show (if utf8Len (List.replicate n c) > maxB
        then (([] : List Str), (List.replicate n c).take maxB)
        else ([], List.replicate n c)) = ([], (List.replicate n c).take maxB)
      rw [if_pos (show utf8Len (List.replicate n c) > maxB from by rw [hlen]; omega)]
    have htake : (List.replicate n c).take maxB = List.replicate n c :=
      List.take_of_length_le (by simp [hn])
    unfold chunkText
    rw [if_neg (show ¬utf8Len (List.replicate n c) ≤ maxB from by rw [hlen]; omega)]
    rw [pySplitNl_no_newline (by
      intro hm
      exact hc (List.eq_of_mem_replicate hm).symm)]
    rw [List.foldl_cons, List.foldl_nil, hstep, htake]
    show (if List.replicate n c ≠ [] then ([] : List Str) ++ [List.replicate n c] else []) =
      [List.replicate n c]
    rw [if_pos hnn]
    rfl
  · omega

/-! ### Claim C4 -/
/-- C4 (code bug): the chunker promises — in its own docstring and in the
spec — that every returned chunk fits within the byte threshold, but the
hard-truncation of an oversized single line slices by characters
(`paragraph[:max_bytes]`), not by encoded bytes. A single line of 2501
two-byte characters (5002 UTF-8 bytes) is over the 5000-byte threshold,
is not shortened by the slice (2501 ≤ 5000 characters), and comes back as
one chunk of 5002 bytes. -/
theorem C4_chunker_byte_limit_violation :
    chunkText (List.replicate 2501 'é') 5000 = [List.replicate 2501 'é'] ∧
      utf8Len (List.replicate 2501 'é') = 5002 := by
  have h := chunkText_single_long_line 2501 5000 'é' (by decide) (by omega)
    (by rw [show ('é').utf8Size = 2 from by decide]; omega)
  exact ⟨h.1, by rw [utf8Len_replicate]; rfl⟩

/-! ### Dictionary lemmas -/
theorem assocGet_assocSet_self (d : List (Str × α)) (k : Str) (v : α) :
    assocGet (assocSet d k v) k = some v := by
  induction d with
  | nil => simp [assocSet, assocGet]
  | cons p t ih =>
    obtain ⟨k', v'⟩ := p
    by_cases h : k' = k
    · simp [assocSet, assocGet, h]
    · simp [assocSet, assocGet, h, ih]

theorem assocGet_assocSet_ne (d : List (Str × α)) (k k2 : Str) (v : α) (h : k2 ≠ k) :
    assocGet (assocSet d k v) k2 = assocGet d k2 := by
  induction d with
  | nil => simp [assocSet, assocGet, Ne.symm h]
  | cons p t ih =>
    obtain ⟨k', v'⟩ := p
    by_cases hk : k' = k
    · subst hk
      simp [assocSet, assocGet, Ne.symm h]
    · simp [assocSet, assocGet, hk, ih]

theorem assocGet_none_iff (d : List (Str × α)) (k : Str) :
    assocGet d k = none ↔ k ∉ d.map Prod.fst := by
  induction d with
  | nil => simp [assocGet]
  | cons p t ih =>
    obtain ⟨k', v'⟩ := p
    by_cases h : k' = k
    · subst h
      constructor
      · intro hh
        rw [show assocGet ((k', v') :: t) k' = some v' from by simp [assocGet]] at hh
        cases hh
      · intro hh
        simp only [List.map_cons] at hh
        exact absurd (List.mem_cons_self _ _) hh
    · rw [show assocGet ((k', v') :: t) k = assocGet t k from by simp [assocGet, h], ih]
      simp only [List.map_cons, List.mem_cons, not_or]
      exact ⟨fun hh => ⟨Ne.symm h, hh⟩, fun hh => hh.2⟩

theorem keys_assocSet_mem (d : List (Str × α)) (k : Str) (v : α)
    (h : k ∈ d.map Prod.fst) :
    (assocSet d k v).map Prod.fst = d.map Prod.fst := by
  induction d with
  | nil => simp at h
  | cons p t ih =>
    obtain ⟨k', v'⟩ := p
    by_cases hk : k' = k
    · simp [assocSet, hk]
    · have hmem : k ∈ t.map Prod.fst := by
        simp only [List.map_cons, List.mem_cons] at h
        rcases h with h1 | h1
        · exact absurd h1.symm hk
        · exact h1
      simp [assocSet, hk, ih hmem]

theorem keys_assocSet_notmem (d : List (Str × α)) (k : Str) (v : α)
    (h : k ∉ d.map Prod.fst) :
    (assocSet d k v).map Prod.fst = d.map Prod.fst ++ [k] := by
  induction d with
  | nil => simp [assocSet]
  | cons p t ih =>
    obtain ⟨k', v'⟩ := p
    by_cases hk : k' = k
    · refine absurd ?_ h
      simp only [List.map_cons, List.mem_cons]
      exact Or.inl hk.symm
    · have hmem : k ∉ t.map Prod.fst := by
        intro hm
        refine h ?_
        simp only [List.map_cons, List.mem_cons]
        exact Or.inr hm
      simp [assocSet, hk, ih hmem]

theorem assocGet_of_mem_nodup {d : List (Str × α)} {p : Str × α}
    (hmem : p ∈ d) (hnd : (d.map Prod.fst).Nodup) : assocGet d p.1 = some p.2 := by
  induction d with
  | nil => simp at hmem
  | cons q t ih =>
    obtain ⟨k', v'⟩ := q
    have hnd2 : (t.map Prod.fst).Nodup := by
      simp only [List.map_cons, List.nodup_cons] at hnd
      exact hnd.2
    rcases List.mem_cons.mp hmem with rfl | hmem2
    · simp [assocGet]
    · have hne : k' ≠ p.1 := by
        intro h
        have hknd : k' ∉ t.map Prod.fst := by
          simp only [List.map_cons, List.nodup_cons] at hnd
          exact hnd.1
        refine hknd ?_
        rw [h]
        exact List.mem_map_of_mem Prod.fst hmem2
      simp only [assocGet, if_neg hne]
      exact ih hmem2 hnd2

theorem mem_of_assocGet {d : List (Str × α)} {k : Str} {v : α}
    (h : assocGet d k = some v) : (k, v) ∈ d := by
  induction d with
  | nil => simp [assocGet] at h
  | cons q t ih =>
    obtain ⟨k', v'⟩ := q
    by_cases hk : k' = k
    · subst hk
      simp only [assocGet, if_pos rfl] at h
      injection h with h1
      subst h1
      exact List.mem_cons_self _ _
    · simp only [assocGet, if_neg hk] at h
      exact List.mem_cons_of_mem _ (ih h)

theorem assocGet_dedupStep (key : α → Str) (conv : α → β) (sscore : β → ℚ)
    (rscore : α → ℚ) (d : List (Str × β)) (r : α) (k : Str) :
    assocGet (dedupStep key conv sscore rscore d r) k =
      if key r = k then
        match assocGet d k with
        | none => some (conv r)
        | some old => if sscore old < rscore r then some (conv r) else some old
      else assocGet d k := by
  by_cases hkr : key r = k
  · subst hkr
    cases hg : assocGet d (key r) with
    | none => simp [dedupStep, hg, assocGet_assocSet_self]
    | some old =>
      by_cases hlt : sscore old < rscore r
      · simp [dedupStep, hg, hlt, assocGet_assocSet_self]
      · simp [dedupStep, hg, hlt]
  · cases hg : assocGet d (key r) with
    | none => simp [dedupStep, hg, hkr, assocGet_assocSet_ne _ _ _ _ (Ne.symm hkr)]
    | some old =>
      by_cases hlt : sscore old < rscore r
      · simp [dedupStep, hg, hlt, hkr, assocGet_assocSet_ne _ _ _ _ (Ne.symm hkr)]
      · simp [dedupStep, hg, hlt, hkr]

theorem good_foldl (key : α → Str) (conv : α → β) (sscore : β → ℚ) (rscore : α → ℚ)
    (hsc : ∀ r, sscore (conv r) = rscore r) :
    ∀ (rs seen : List α) (d : List (Str × β)),
      (∀ k2, Good key conv sscore rscore k2 seen (assocGet d k2)) →
      ∀ k2, Good key conv sscore rscore k2 (seen ++ rs)
        (assocGet (rs.foldl (dedupStep key conv sscore rscore) d) k2) := by
  intro rs
  induction rs with
  | nil => intro seen d hG k2; simpa using hG k2
  | cons r rest ih =>
    intro seen d hG k2
    have hstep : ∀ k3, Good key conv sscore rscore k3 (seen ++ [r])
        (assocGet (dedupStep key conv sscore rscore d r) k3) := by
      intro k3
      rw [assocGet_dedupStep]
      by_cases hkr : key r = k3
      · rw [if_pos hkr]
        cases hg : assocGet d k3 with
        | none =>
          have hnone := hG k3
          rw [hg] at hnone
          refine ⟨⟨r, by simp, hkr, rfl⟩, ?_⟩
          intro r2 hr2 hk2
          rcases List.mem_append.mp hr2 with h2 | h2
          · exact absurd hk2 (hnone r2 h2)
          · rw [List.mem_singleton.mp h2, hsc]
        | some old =>
          have hsome := hG k3
          rw [hg] at hsome
          obtain ⟨⟨r0, hr0, hr0k, hr0c⟩, hmax⟩ := hsome
          show Good key conv sscore rscore k3 (seen ++ [r])
            (if sscore old < rscore r then some (conv r) else some old)
          by_cases hlt : sscore old < rscore r
          · rw [if_pos hlt]
            refine ⟨⟨r, by simp, hkr, rfl⟩, ?_⟩
            intro r2 hr2 hk2
            rcases List.mem_append.mp hr2 with h2 | h2
            · exact le_of_lt (lt_of_le_of_lt (hmax r2 h2 hk2) (by rw [hsc]; exact hlt))
            · rw [List.mem_singleton.mp h2, hsc]
          · rw [if_neg hlt]
            refine ⟨⟨r0, List.mem_append_left _ hr0, hr0k, hr0c⟩, ?_⟩
            intro r2 hr2 hk2
            rcases List.mem_append.mp hr2 with h2 | h2
            · exact hmax r2 h2 hk2
            · rw [List.mem_singleton.mp h2]
              exact le_of_not_lt hlt
      · rw [if_neg hkr]
        have hG3 := hG k3
        cases hg : assocGet d k3 with
        | none =>
          rw [hg] at hG3
          intro r2 hr2
          rcases List.mem_append.mp hr2 with h2 | h2
          · exact hG3 r2 h2
          · rw [List.mem_singleton.mp h2]; exact hkr
        | some old =>
          rw [hg] at hG3
          obtain ⟨⟨r0, hr0, hr0k, hr0c⟩, hmax⟩ := hG3
          refine ⟨⟨r0, List.mem_append_left _ hr0, hr0k, hr0c⟩, ?_⟩
          intro r2 hr2 hk2
          rcases List.mem_append.mp hr2 with h2 | h2
          · exact hmax r2 h2 hk2
          · rw [List.mem_singleton.mp h2] at hk2
            exact absurd hk2 hkr
    have hres := ih (seen ++ [r]) (dedupStep key conv sscore rscore d r) hstep k2
    simpa [List.append_assoc] using hres

theorem keys_nodup_dedupStep (key : α → Str) (conv : α → β) (sscore : β → ℚ)
    (rscore : α → ℚ) (d : List (Str × β)) (r : α)
    (hnd : (d.map Prod.fst).Nodup) :
    ((dedupStep key conv sscore rscore d r).map Prod.fst).Nodup := by
  cases hg : assocGet d (key r) with
  | none =>
    have hnot : key r ∉ d.map Prod.fst := (assocGet_none_iff d (key r)).mp hg
    simp only [dedupStep, hg]
    rw [keys_assocSet_notmem d _ _ hnot]
    simp [List.nodup_append, hnd, hnot]
  | some old =>
    have hmem : key r ∈ d.map Prod.fst :=
      List.mem_map_of_mem Prod.fst (mem_of_assocGet hg)
    by_cases hlt : sscore old < rscore r
    · simp only [dedupStep, hg, if_pos hlt]
      rw [keys_assocSet_mem d _ _ hmem]
      exact hnd
    · simp only [dedupStep, hg, if_neg hlt]
      exact hnd

theorem keys_nodup_foldl (key : α → Str) (conv : α → β) (sscore : β → ℚ)
    (rscore : α → ℚ) :
    ∀ (rs : List α) (d : List (Str × β)), (d.map Prod.fst).Nodup →
      ((rs.foldl (dedupStep key conv sscore rscore) d).map Prod.fst).Nodup := by
  intro rs
  induction rs with
  | nil => intro d hnd; exact hnd
  | cons r rest ih =>
    intro d hnd
    exact ih _ (keys_nodup_dedupStep key conv sscore rscore d r hnd)

theorem chunkedFold_eq (key : α → Str) (conv : α → β) (sscore : β → ℚ)
    (rscore : α → ℚ) (backend : Str → Option (List α)) (text : Str) :
    chunkedFold key conv sscore rscore backend text =
      (mergedInputs backend text).foldl (dedupStep key conv sscore rscore) [] := by
  unfold chunkedFold mergedInputs
  generalize chunkText text 5000 = cs
  generalize hd0 : ([] : List (Str × β)) = d0
  clear hd0
  induction cs generalizing d0 with
  | nil => rfl
  | cons ch rest ih =>
    simp only [List.foldl_cons, List.map_cons, List.flatten_cons, List.foldl_append]
    rw [← ih]
    congr 1
    by_cases hb : pyStrip ch = []
    · simp [hb]
    · cases hbe : backend ch with
      | none => simp [hb, hbe]
      | some rs => simp [hb, hbe]

theorem dedup_spec (key : α → Str) (skey : β → Str) (conv : α → β)
    (sscore : β → ℚ) (rscore : α → ℚ)
    (hk : ∀ r, skey (conv r) = key r) (hsc : ∀ r, sscore (conv r) = rscore r)
    (backend : Str → Option (List α)) (text : Str) (out : List β) (ins : List α)
    (hout : out = List.insertionSort (scoreGE sscore)
      ((chunkedFold key conv sscore rscore backend text).map Prod.snd))
    (hins : ins = mergedInputs backend text) :
    (out.map skey).Nodup ∧
    (∀ e ∈ out, (∃ r ∈ ins, conv r = e) ∧
       ∀ r2 ∈ ins, key r2 = skey e → rscore r2 ≤ sscore e) ∧
    (∀ r ∈ ins, ∃ e ∈ out, skey e = key r) ∧
    List.Sorted (scoreGE sscore) out := by
  subst hout hins
  have hfold : chunkedFold key conv sscore rscore backend text
      = (mergedInputs backend text).foldl (dedupStep key conv sscore rscore) [] :=
    chunkedFold_eq key conv sscore rscore backend text
  have hnd : ((chunkedFold key conv sscore rscore backend text).map Prod.fst).Nodup := by
    rw [hfold]
    exact keys_nodup_foldl key conv sscore rscore _ [] (by simp)
  have hGood : ∀ k2, Good key conv sscore rscore k2 (mergedInputs backend text)
      (assocGet (chunkedFold key conv sscore rscore backend text) k2) := by
    intro k2
    rw [hfold]
    have h0 : ∀ k3, Good key conv sscore rscore k3 []
        (assocGet ([] : List (Str × β)) k3) := by
      intro k3 r hr
      cases hr
    have hres := good_foldl key conv sscore rscore hsc (mergedInputs backend text) [] [] h0 k2
    simpa using hres
  have hentry : ∀ p ∈ chunkedFold key conv sscore rscore backend text,
      ∃ r ∈ mergedInputs backend text, key r = p.1 ∧ conv r = p.2 := by
    intro p hp
    have hget := assocGet_of_mem_nodup hp hnd
    have hG := hGood p.1
    rw [hget] at hG
    exact hG.1
  have hskeyp : ∀ p ∈ chunkedFold key conv sscore rscore backend text, skey p.2 = p.1 := by
    intro p hp
    obtain ⟨r, _, hkr, hcr⟩ := hentry p hp
    rw [← hcr, hk, hkr]
  have hperm : (List.insertionSort (scoreGE sscore)
      ((chunkedFold key conv sscore rscore backend text).map Prod.snd)).Perm
      ((chunkedFold key conv sscore rscore backend text).map Prod.snd) :=
    List.perm_insertionSort _ _
  refine ⟨?_, ?_, ?_, List.sorted_insertionSort _ _⟩
  · have h1 := hperm.map skey
    have h2 : ((chunkedFold key conv sscore rscore backend text).map Prod.snd).map skey
        = (chunkedFold key conv sscore rscore backend text).map Prod.fst := by
      rw [List.map_map]
      exact List.map_congr_left hskeyp
    rw [h2] at h1
    exact h1.nodup_iff.mpr hnd
  · intro e he
    have he2 : e ∈ (chunkedFold key conv sscore rscore backend text).map Prod.snd :=
      hperm.subset he
    obtain ⟨p, hp, hpe⟩ := List.mem_map.mp he2
    obtain ⟨r, hrins, hkr, hcr⟩ := hentry p hp
    have hsk : skey e = p.1 := by rw [← hpe]; exact hskeyp p hp
    refine ⟨⟨r, hrins, by rw [hcr, hpe]⟩, ?_⟩
    intro r2 hr2 hk2
    have hG := hGood p.1
    have hget := assocGet_of_mem_nodup hp hnd
    rw [hget] at hG
    have hle := hG.2 r2 hr2 (by rw [hk2, hsk])
    rw [hpe] at hle
    exact hle
  · intro r hrins
    have hG := hGood (key r)
    cases hget : assocGet (chunkedFold key conv sscore rscore backend text) (key r) with
    | none =>
      rw [hget] at hG
      exact absurd rfl (hG r hrins)
    | some e =>
      rw [hget] at hG
      obtain ⟨⟨r0, _, hr0k, hr0c⟩, _⟩ := hG
      refine ⟨e, ?_, ?_⟩
      · have hm1 : (key r, e) ∈ chunkedFold key conv sscore rscore backend text :=
          mem_of_assocGet hget
        have hm2 : e ∈ (chunkedFold key conv sscore rscore backend text).map Prod.snd :=
          List.mem_map_of_mem Prod.snd hm1
        exact hperm.mem_iff.mpr hm2
      · rw [← hr0c, hk, hr0k]

theorem entKey_inj {ty1 tx1 ty2 tx2 : Str} (h1 : ':' ∉ ty1) (h2 : ':' ∉ ty2)
    (he : entKey ty1 tx1 = entKey ty2 tx2) : ty1 = ty2 ∧ tx1 = tx2 := by
  induction ty1 generalizing ty2 with
  | nil =>
    cases ty2 with
    | nil =>
      simp only [entKey, List.nil_append, List.cons.injEq] at he
      exact ⟨rfl, he.2⟩
    | cons b t2 =>
      simp only [entKey, List.nil_append, List.cons_append] at he
      rw [List.cons.injEq] at he
      exact absurd (by rw [he.1]; exact List.mem_cons_self _ _) h2
  | cons a t1 ih =>
    cases ty2 with
    | nil =>
      simp only [entKey, List.nil_append, List.cons_append] at he
      rw [List.cons.injEq] at he
      exact absurd (by rw [← he.1]; exact List.mem_cons_self _ _) h1
    | cons b t2 =>
      simp only [entKey, List.cons_append] at he
      rw [List.cons.injEq] at he
      have h1' : ':' ∉ t1 := fun hm => h1 (List.mem_cons_of_mem _ hm)
      have h2' : ':' ∉ t2 := fun hm => h2 (List.mem_cons_of_mem _ hm)
      obtain ⟨hty, htx⟩ := ih h1' h2' he.2
      exact ⟨by rw [he.1, hty], htx⟩

/-- C5: merged NLP results are deduplicated per key — the case-sensitive pair
(type, text) for entities (under the source's implicit assumption that entity
types contain no ':' character, since the code keys on the concatenated string
"Type:Text"), the lowercased text for key phrases — each surviving entry
carries the maximum observed score for its key and stems from an observed raw
item, every observed key is represented, and both final lists are sorted by
score descending. -/
theorem C5_dedup_merge_sort
    (ebackend : Str → Option (List RawEntity)) (etext : Str)
    (pbackend : Str → Option (List RawPhrase)) (ptext : Str)
    (hcolon : ∀ r ∈ mergedInputs ebackend etext, ':' ∉ r.type) :
    ((detect_entities ebackend etext).map (fun e => (e.type, e.text))).Nodup ∧
    (∀ e ∈ detect_entities ebackend etext,
      (∃ r ∈ mergedInputs ebackend etext,
        r.type = e.type ∧ r.text = e.text ∧ r.score = e.score) ∧
      ∀ r ∈ mergedInputs ebackend etext,
        r.type = e.type → r.text = e.text → r.score ≤ e.score) ∧
    (∀ r ∈ mergedInputs ebackend etext, ∃ e ∈ detect_entities ebackend etext,
      e.type = r.type ∧ e.text = r.text) ∧
    List.Sorted (scoreGE Entity.score) (detect_entities ebackend etext) ∧
    ((detect_key_phrases pbackend ptext).map (fun p => phraseKey p.text)).Nodup ∧
    (∀ e ∈ detect_key_phrases pbackend ptext,
      (∃ r ∈ mergedInputs pbackend ptext, r.text = e.text ∧ r.score = e.score) ∧
      ∀ r ∈ mergedInputs pbackend ptext,
        phraseKey r.text = phraseKey e.text → r.score ≤ e.score) ∧
    (∀ r ∈ mergedInputs pbackend ptext, ∃ e ∈ detect_key_phrases pbackend ptext,
      phraseKey e.text = phraseKey r.text) ∧
    List.Sorted (scoreGE Phrase.score) (detect_key_phrases pbackend ptext) := by
  obtain ⟨hE1, hE2, hE3, hE4⟩ := dedup_spec
    (fun r : RawEntity => entKey r.type r.text)
    (fun e : Entity => entKey e.type e.text)
    (fun r : RawEntity => ⟨r.text, r.type, r.score⟩)
    Entity.score RawEntity.score (fun _ => rfl) (fun _ => rfl)
    ebackend etext (detect_entities ebackend etext) (mergedInputs ebackend etext)
    rfl rfl
  obtain ⟨hP1, hP2, hP3, hP4⟩ := dedup_spec
    (fun r : RawPhrase => phraseKey r.text)
    (fun p : Phrase => phraseKey p.text)
    (fun r : RawPhrase => ⟨r.text, r.score⟩)
    Phrase.score RawPhrase.score (fun _ => rfl) (fun _ => rfl)
    pbackend ptext (detect_key_phrases pbackend ptext) (mergedInputs pbackend ptext)
    rfl rfl
  have hetype : ∀ e ∈ detect_entities ebackend etext, ':' ∉ e.type := by
    intro e he
    obtain ⟨⟨r, hr, hconv⟩, _⟩ := hE2 e he
    have ht : e.type = r.type := by rw [← hconv]
    rw [ht]
    exact hcolon r hr
  refine ⟨?_, ?_, ?_, hE4, ?_, ?_, ?_, hP4⟩
  · have hmm : (detect_entities ebackend etext).map (fun e => entKey e.type e.text)
        = ((detect_entities ebackend etext).map (fun e => (e.type, e.text))).map
            (fun pr => entKey pr.1 pr.2) := by
      rw [List.map_map]
      exact List.map_congr_left (fun e _ => rfl)
    rw [hmm] at hE1
    exact hE1.of_map
  · intro e he
    obtain ⟨⟨r, hr, hconv⟩, hmax⟩ := hE2 e he
    refine ⟨⟨r, hr, ?_, ?_, ?_⟩, ?_⟩
    · rw [← hconv]
    · rw [← hconv]
    · rw [← hconv]
    · intro r2 hr2 hty htx
      exact hmax r2 hr2 (by simp only [entKey]; rw [hty, htx])
  · intro r hr
    obtain ⟨e, he, hke⟩ := hE3 r hr
    obtain ⟨hty, htx⟩ := entKey_inj (hetype e he) (hcolon r hr) hke
    exact ⟨e, he, hty, htx⟩
  · exact hP1
  · intro e he
    obtain ⟨⟨r, hr, hconv⟩, hmax⟩ := hP2 e he
    refine ⟨⟨r, hr, ?_, ?_⟩, ?_⟩
    · rw [← hconv]
    · rw [← hconv]
    · intro r2 hr2 hkeq
      exact hmax r2 hr2 hkeq
  · intro r hr
    exact hP3 r hr

/-- Closed instance of C5 at a concrete input. -/
theorem C5_dedup_merge_sort_witness :
    (∀ r ∈ mergedInputs ebackW ['h', 'i'], ':' ∉ r.type) ∧
    (((detect_entities ebackW ['h', 'i']).map (fun e => (e.type, e.text))).Nodup ∧
      (∀ e ∈ detect_entities ebackW ['h', 'i'],
        (∃ r ∈ mergedInputs ebackW ['h', 'i'],
          r.type = e.type ∧ r.text = e.text ∧ r.score = e.score) ∧
        ∀ r ∈ mergedInputs ebackW ['h', 'i'],
          r.type = e.type → r.text = e.text → r.score ≤ e.score) ∧
      (∀ r ∈ mergedInputs ebackW ['h', 'i'], ∃ e ∈ detect_entities ebackW ['h', 'i'],
        e.type = r.type ∧ e.text = r.text) ∧
      List.Sorted (scoreGE Entity.score) (detect_entities ebackW ['h', 'i']) ∧
      ((detect_key_phrases pbackW ['h', 'i']).map (fun p => phraseKey p.text)).Nodup ∧
      (∀ e ∈ detect_key_phrases pbackW ['h', 'i'],
        (∃ r ∈ mergedInputs pbackW ['h', 'i'], r.text = e.text ∧ r.score = e.score) ∧
        ∀ r ∈ mergedInputs pbackW ['h', 'i'],
          phraseKey r.text = phraseKey e.text → r.score ≤ e.score) ∧
      (∀ r ∈ mergedInputs pbackW ['h', 'i'], ∃ e ∈ detect_key_phrases pbackW ['h', 'i'],
        phraseKey e.text = phraseKey r.text) ∧
      List.Sorted (scoreGE Phrase.score) (detect_key_phrases pbackW ['h', 'i'])) :=
  ⟨by decide, C5_dedup_merge_sort ebackW ['h', 'i'] pbackW ['h', 'i'] (by decide)⟩

theorem pySplitNl_replicate_nl (n : Nat) :
    pySplitNl (List.replicate n '\n') = List.replicate (n + 1) ([] : Str) := by
  induction n with
  | zero => rfl
  | succ m ih => simp [List.replicate_succ, pySplitNl, ih]

theorem foldl_chunkStep_empties (maxB m : Nat) :
    (List.replicate m ([] : Str)).foldl (chunkStep maxB) ([], []) = ([], []) := by
  induction m with
  | zero => rfl
  | succ k ih =>
    rw [List.replicate_succ, List.foldl_cons]
    have hstep : chunkStep maxB ([], []) [] = ([], []) := by
      simp [chunkStep, utf8Len]
    rw [hstep, ih]

theorem chunkText_all_newlines (n : Nat) (h5 : 5000 < n) :
    chunkText (List.replicate n '\n') 5000 = [] := by
  have hlen : utf8Len (List.replicate n '\n') = n := by
    rw [utf8Len_replicate]
    simp [show '\n'.utf8Size = 1 from rfl]
  unfold chunkText
  rw [if_neg (by rw [hlen]; omega)]
  simp only [pySplitNl_replicate_nl, foldl_chunkStep_empties]
  simp

/-- C8: the sentiment operation consults the backend only on the first chunk;
the empty text and a small whitespace-only text yield NEUTRAL with empty
scores and no backend call; a backend failure yields UNKNOWN with an error
marker instead of raising — but a whitespace-only text of 5001 newlines makes
the chunker return no chunks at all, and `self._chunk_text(text)[0]` raises
IndexError (modelled as `none`) instead of returning the NEUTRAL result the
claim promises for every whitespace-only input. -/
theorem C8_sentiment_first_chunk_and_crash :
    (∀ backend text, detect_sentiment backend text =
      detect_sentiment (fun _ => backend ((chunkText text 5000).headD [])) text) ∧
    (∀ backend, detect_sentiment backend [] = some ⟨"NEUTRAL".toList, [], false⟩) ∧
    (∀ backend, detect_sentiment backend [' ', '\t', '\n'] =
      some ⟨"NEUTRAL".toList, [], false⟩) ∧
    (∀ text, detect_sentiment (fun _ => none) text = none ∨
      detect_sentiment (fun _ => none) text = some ⟨"NEUTRAL".toList, [], false⟩ ∨
      detect_sentiment (fun _ => none) text = some ⟨"UNKNOWN".toList, [], true⟩) ∧
    (∀ backend, detect_sentiment backend (List.replicate 5001 '\n') = none) := by
  refine ⟨?_, fun backend => rfl, fun backend => rfl, ?_, ?_⟩
  · intro backend text
    unfold detect_sentiment
    by_cases ht : text = []
    · simp [ht, show pyStrip ([] : Str) = [] from rfl]
    · rw [if_neg ht]
      cases hh : (chunkText text 5000).head? with
      | none => rfl
      | some c =>
        have hd : (chunkText text 5000).headD [] = c := by
          rw [List.headD_eq_head?_getD, hh]
          rfl
        rw [hd]
  · intro text
    unfold detect_sentiment
    by_cases ht : text = []
    · rw [if_pos ht]
      right; left; rfl
    · rw [if_neg ht]
      cases hh : (chunkText text 5000).head? with
      | none => left; rfl
      | some c =>
        by_cases hs : pyStrip c = []
        · right; left; simp [hs]
        · right; right; simp [hs]
  · intro backend
    unfold detect_sentiment
    rw [if_neg (show ¬(List.replicate 5001 '\n' = []) from fun h => by
        have h2 := congrArg List.length h
        rw [List.length_replicate, List.length_nil] at h2
        omega),
      chunkText_all_newlines 5001 (by omega)]
    rfl

theorem foldl_assocSet_not_mem (ups : List (Str × V)) :
    ∀ (rec : List (Str × V)) (k : Str), k ∉ ups.map Prod.fst →
      assocGet (ups.foldl (fun r kv => assocSet r kv.1 kv.2) rec) k = assocGet rec k := by
  induction ups with
  | nil => intro rec k _; rfl
  | cons p rest ih =>
    intro rec k h
    have hk : k ∉ rest.map Prod.fst := by
      intro hm
      exact h (by simp only [List.map_cons, List.mem_cons]; exact Or.inr hm)
    have hne : k ≠ p.1 := by
      intro he
      exact h (by simp only [List.map_cons, List.mem_cons]; exact Or.inl he)
    rw [List.foldl_cons, ih _ k hk, assocGet_assocSet_ne _ _ _ _ hne]

theorem foldl_assocSet_mem (ups : List (Str × V)) :
    ∀ (rec : List (Str × V)) (k : Str) (v : V), (ups.map Prod.fst).Nodup →
      assocGet ups k = some v →
      assocGet (ups.foldl (fun r kv => assocSet r kv.1 kv.2) rec) k = some v := by
  induction ups with
  | nil => intro rec k v _ hg; exact Option.noConfusion hg
  | cons p rest ih =>
    intro rec k v hnd hg
    obtain ⟨k1, v1⟩ := p
    rw [List.foldl_cons]
    by_cases he : k1 = k
    · subst he
      have hv : v1 = v := by
        have hgg : assocGet ((k1, v1) :: rest) k1 = some v1 := by
          simp [assocGet]
        rw [hgg] at hg
        injection hg
      have hk : k1 ∉ rest.map Prod.fst := by
        simp only [List.map_cons, List.nodup_cons] at hnd
        exact hnd.1
      rw [foldl_assocSet_not_mem rest _ k1 hk, assocGet_assocSet_self, hv]
    · have hnd2 : (rest.map Prod.fst).Nodup := by
        simp only [List.map_cons, List.nodup_cons] at hnd
        exact hnd.2
      have hg2 : assocGet rest k = some v := by
        rw [show assocGet ((k1, v1) :: rest) k = assocGet rest k from by
          simp [assocGet, he]] at hg
        exact hg
      exact ih _ k v hnd2 hg2

theorem keys_nodup_assocSet (d : List (Str × V)) (k : Str) (v : V)
    (hnd : (d.map Prod.fst).Nodup) : ((assocSet d k v).map Prod.fst).Nodup := by
  by_cases hm : k ∈ d.map Prod.fst
  · rw [keys_assocSet_mem d k v hm]
    exact hnd
  · rw [keys_assocSet_notmem d k v hm]
    simp [List.nodup_append, hnd, hm]

/-- C2: updating a session merges exactly the supplied fields. Any field of
the stored record not named in the update map (and different from
`updatedAt`) keeps its prior value, `updatedAt` is set to the supplied
current time, every supplied field takes its new value in the returned
post-merge record, and the empty update map changes nothing but
`updatedAt`. The Nodup hypothesis models Python dict keys being unique. -/
theorem C2_update_session_frame (record updates : List (Str × V)) (now : V)
    (hnd : (updates.map Prod.fst).Nodup) :
    (∀ k, k ∉ updates.map Prod.fst → k ≠ "updatedAt".toList →
      assocGet (update_session now record updates) k = assocGet record k) ∧
    assocGet (update_session now record updates) ("updatedAt".toList) = some now ∧
    (∀ k v, k ≠ "updatedAt".toList → assocGet updates k = some v →
      assocGet (update_session now record updates) k = some v) ∧
    (∀ k, k ≠ "updatedAt".toList →
      assocGet (update_session now record []) k = assocGet record k) := by
  have hnd2 : ((assocSet updates ("updatedAt".toList) now).map Prod.fst).Nodup :=
    keys_nodup_assocSet updates _ now hnd
  refine ⟨?_, ?_, ?_, ?_⟩
  · intro k hk hua
    unfold update_session
    apply foldl_assocSet_not_mem
    intro hm
    by_cases hu : ("updatedAt".toList) ∈ updates.map Prod.fst
    · rw [keys_assocSet_mem updates _ now hu] at hm
      exact hk hm
    · rw [keys_assocSet_notmem updates _ now hu] at hm
      rcases List.mem_append.mp hm with h1 | h1
      · exact hk h1
      · exact hua (List.mem_singleton.mp h1)
  · unfold update_session
    exact foldl_assocSet_mem _ _ _ _ hnd2 (assocGet_assocSet_self _ _ _)
  · intro k v hua hg
    unfold update_session
    refine foldl_assocSet_mem _ _ _ _ hnd2 ?_
    rw [assocGet_assocSet_ne _ _ _ _ hua]
    exact hg
  · intro k hua
    unfold update_session
    apply foldl_assocSet_not_mem
    intro hm
    have : (assocSet ([] : List (Str × V)) ("updatedAt".toList) now) =
        [("updatedAt".toList, now)] := rfl
    rw [this] at hm
    simp only [List.map_cons, List.map_nil, List.mem_singleton] at hm
    exact hua hm

/-- Closed instance of C2 at a concrete record and single-field update. -/
theorem C2_update_session_frame_witness :
    ((([("b".toList, (9 : Int))] : List (Str × Int)).map Prod.fst).Nodup) ∧
    ((∀ k, k ∉ ([("b".toList, (9 : Int))] : List (Str × Int)).map Prod.fst →
        k ≠ "updatedAt".toList →
      assocGet (update_session 7 [("a".toList, (1 : Int)), ("b".toList, 2)]
        [("b".toList, 9)]) k =
        assocGet [("a".toList, (1 : Int)), ("b".toList, 2)] k) ∧
    assocGet (update_session 7 [("a".toList, (1 : Int)), ("b".toList, 2)]
      [("b".toList, 9)]) ("updatedAt".toList) = some 7 ∧
    (∀ k v, k ≠ "updatedAt".toList →
      assocGet ([("b".toList, (9 : Int))] : List (Str × Int)) k = some v →
      assocGet (update_session 7 [("a".toList, (1 : Int)), ("b".toList, 2)]
        [("b".toList, 9)]) k = some v) ∧
    (∀ k, k ≠ "updatedAt".toList →
      assocGet (update_session 7 [("a".toList, (1 : Int)), ("b".toList, 2)] []) k =
        assocGet [("a".toList, (1 : Int)), ("b".toList, 2)] k)) :=
  ⟨by decide,
   C2_update_session_frame [("a".toList, (1 : Int)), ("b".toList, 2)]
     [("b".toList, 9)] 7 (by decide)⟩

/-- C6: a company name whose normalization matches a mock key by bidirectional
substring containment short-circuits to the canned profile: the result carries
source mock_data, no pages, and the canned summary of a matching key, and it
is identical for every network fetcher and every optional URL (up to the
echoed company_url field) — no network access can influence it. -/
theorem C6_mock_first (mock : List (Str × μ)) (name : Str)
    (hmatch : ∃ kv ∈ mock, mockPred (pyNormalize name) kv = true) :
    ∃ kv, kv ∈ mock ∧ mockPred (pyNormalize name) kv = true ∧
      ∀ (livePages : Option Str → List Page) (url : Option Str),
        scrape_company mock livePages name url =
          { company_name := name, company_url := url.getD [], pages := [],
            summary := Sum.inl kv.2, source := "mock_data".toList } := by
  obtain ⟨kv0, hkv0, hp0⟩ := hmatch
  cases hf : mock.find? (mockPred (pyNormalize name)) with
  | none =>
    rw [List.find?_eq_none] at hf
    exact absurd hp0 (hf kv0 hkv0)
  | some kv =>
    refine ⟨kv, List.mem_of_find?_eq_some hf, List.find?_some hf, ?_⟩
    intro lp url
    simp [scrape_company, hf]

/-- Closed instance of C6: the mock key "acme" matches "Acme Corp". -/
theorem C6_mock_first_witness :
    (∃ kv ∈ [(['a', 'c', 'm', 'e'], (0 : Nat))],
      mockPred (pyNormalize ("Acme Corp".toList)) kv = true) ∧
    (∃ kv, kv ∈ [(['a', 'c', 'm', 'e'], (0 : Nat))] ∧
      mockPred (pyNormalize ("Acme Corp".toList)) kv = true ∧
      ∀ (livePages : Option Str → List Page) (url : Option Str),
        scrape_company [(['a', 'c', 'm', 'e'], (0 : Nat))] livePages
            ("Acme Corp".toList) url =
          { company_name := "Acme Corp".toList, company_url := url.getD [],
            pages := [], summary := Sum.inl kv.2, source := "mock_data".toList }) :=
  ⟨by decide, C6_mock_first [(['a', 'c', 'm', 'e'], (0 : Nat))] ("Acme Corp".toList)
    (by decide)⟩

theorem pyJoin_length (sep : Str) : ∀ (l : List Str), l ≠ [] →
    (pyJoin sep l).length = (l.map List.length).sum + sep.length * (l.length - 1) := by
  intro l
  induction l with
  | nil => intro h; exact absurd rfl h
  | cons x t ih =>
    intro _
    cases t with
    | nil => simp [pyJoin]
    | cons y r =>
      have hr := ih (by simp)
      rw [show pyJoin sep (x :: y :: r) = x ++ sep ++ pyJoin sep (y :: r) from rfl]
      simp only [List.length_append, List.map_cons, List.sum_cons, List.length_cons]
      rw [hr]
      simp only [List.map_cons, List.sum_cons, List.length_cons, Nat.add_sub_cancel,
        Nat.succ_sub_one, Nat.mul_succ]
      omega

/-- C7 (amended): the aggregation's description comes from the FIRST FETCHED
page — successful or not — and is empty when no pages were fetched;
combined_content joins the successful pages' content with the visible
separator, pages_scraped counts the successes, total_content_length sums the
successful pages' content lengths (so the joined content's length is that sum
plus 7 bytes of separator between consecutive successes), and a run with zero
successful pages yields a valid, mostly empty summary rather than a failure. -/
theorem C7_aggregate_amended (name : Str) (pages : List Page) :
    (aggregate_scraped_data name pages).name = name ∧
    (pages = [] → (aggregate_scraped_data name pages).description = []) ∧
    (∀ p rest, pages = p :: rest →
      (aggregate_scraped_data name pages).description = p.description) ∧
    (aggregate_scraped_data name pages).combined_content =
      pyJoin sepStr ((pages.filter Page.success).map Page.content) ∧
    (aggregate_scraped_data name pages).pages_scraped =
      (pages.filter Page.success).length ∧
    (aggregate_scraped_data name pages).total_content_length =
      (((pages.filter Page.success).map Page.content).map List.length).sum ∧
    (pages.filter Page.success = [] →
      (aggregate_scraped_data name pages).combined_content = [] ∧
      (aggregate_scraped_data name pages).total_content_length = 0 ∧
      (aggregate_scraped_data name pages).headings = []) ∧
    (1 ≤ (aggregate_scraped_data name pages).pages_scraped →
      (aggregate_scraped_data name pages).combined_content.length =
        (aggregate_scraped_data name pages).total_content_length +
          7 * ((aggregate_scraped_data name pages).pages_scraped - 1)) := by
  refine ⟨rfl, ?_, ?_, rfl, rfl, rfl, ?_, ?_⟩
  · intro h
    simp [aggregate_scraped_data, h]
  · intro p rest h
    simp [aggregate_scraped_data, h]
  · intro h
    simp [aggregate_scraped_data, h, pyJoin]
  · intro h1
    have hlen : (aggregate_scraped_data name pages).pages_scraped =
        (pages.filter Page.success).length := rfl
    rw [hlen] at h1
    have hne : (pages.filter Page.success).map Page.content ≠ [] := by
      intro hh
      have := congrArg List.length hh
      simp only [List.length_map, List.length_nil] at this
      omega
    show (pyJoin sepStr ((pages.filter Page.success).map Page.content)).length = _
    rw [pyJoin_length sepStr _ hne]
    have hsep : sepStr.length = 7 := rfl
    rw [hsep]
    simp only [List.length_map]
    rfl

/-- C7 counterexample: when the first fetched page failed and the second
succeeded, the description echoes the FAILED first page — `pages[0]` is read
without checking success — not the first successful page as claimed. -/
theorem C7_aggregate_counterexample :
    (([⟨false, [], [], ['X']⟩, ⟨true, ['b'], [], ['D']⟩] : List Page).filter
      Page.success).head? = some ⟨true, ['b'], [], ['D']⟩ ∧
    (aggregate_scraped_data ['n']
      [⟨false, [], [], ['X']⟩, ⟨true, ['b'], [], ['D']⟩]).description = ['X'] ∧
    (aggregate_scraped_data ['n']
      [⟨false, [], [], ['X']⟩, ⟨true, ['b'], [], ['D']⟩]).description ≠ ['D'] := by
  decide

/-- Closed instance of the amended C7 at one failed and one successful page. -/
theorem C7_aggregate_amended_witness :
    (aggregate_scraped_data ['n']
      [⟨false, [], [], ['X']⟩, ⟨true, ['b', 'c'], [], ['D']⟩]).description = ['X'] ∧
    (aggregate_scraped_data ['n']
      [⟨false, [], [], ['X']⟩, ⟨true, ['b', 'c'], [], ['D']⟩]).pages_scraped = 1 ∧
    (aggregate_scraped_data ['n']
      [⟨false, [], [], ['X']⟩, ⟨true, ['b', 'c'], [], ['D']⟩]).combined_content.length =
      (aggregate_scraped_data ['n']
        [⟨false, [], [], ['X']⟩, ⟨true, ['b', 'c'], [], ['D']⟩]).total_content_length +
        7 * ((aggregate_scraped_data ['n']
          [⟨false, [], [], ['X']⟩, ⟨true, ['b', 'c'], [], ['D']⟩]).pages_scraped - 1) ∧
    (aggregate_scraped_data ['n'] ([] : List Page)).description = [] ∧
    (aggregate_scraped_data ['n'] ([⟨false, [], [], ['X']⟩] : List Page)).headings = [] :=
  ⟨(C7_aggregate_amended ['n'] [⟨false, [], [], ['X']⟩, ⟨true, ['b', 'c'], [], ['D']⟩]).2.2.1
      ⟨false, [], [], ['X']⟩ [⟨true, ['b', 'c'], [], ['D']⟩] rfl,
   (C7_aggregate_amended ['n'] [⟨false, [], [], ['X']⟩, ⟨true, ['b', 'c'], [], ['D']⟩]).2.2.2.2.1,
   (C7_aggregate_amended ['n'] [⟨false, [], [], ['X']⟩, ⟨true, ['b', 'c'], [], ['D']⟩]).2.2.2.2.2.2.2
     (by decide),
   (C7_aggregate_amended ['n'] ([] : List Page)).2.1 rfl,
   ((C7_aggregate_amended ['n'] ([⟨false, [], [], ['X']⟩] : List Page)).2.2.2.2.2.2.1
     (by decide)).2.2⟩

/-- C3 (amended): on a parse failure no generation operation raises and each
returns a structurally valid fallback — but only the profile and brief
fallbacks carry an explicit error marker. The profile fallback has all 12
schema keys, echoes the scraped name, truncated raw text as description, and
the marker "Low — JSON parse failed, raw text returned"; the questions
operation degrades to the EMPTY list, which echoes nothing and carries no
marker; the brief fallback has all 7 schema keys, echoes the profile and
questions, and the marker "Brief generation encountered a parsing error."; the
packet fallback has all 3 schema keys and echoes upstream data, but its
invitation_text is the standard friendly message with NO error marker. -/
theorem C3_generation_fallbacks_amended
    (sd cp : List (Str × Json)) (profileJ questionsJ : Json)
    (qs : List (List (Str × Json))) (t : Str)
    (hfail : parseJsonResponse t = none) :
    (∃ fs, generate_company_profile sd t = Json.obj fs ∧
      fs.map Prod.fst = profileSchemaKeys ∧
      assocGet fs ("confidence_level".toList) =
        some (Json.str ("Low — JSON parse failed, raw text returned".toList)) ∧
      assocGet fs ("description".toList) = some (Json.str (t.take 500))) ∧
    generate_questions t = [] ∧
    (∃ fs, generate_interviewer_brief profileJ questionsJ t = some (Json.obj fs) ∧
      fs.map Prod.fst = briefSchemaKeys ∧
      assocGet fs ("executive_summary".toList) =
        some (Json.str ("Brief generation encountered a parsing error.".toList)) ∧
      assocGet fs ("company_overview".toList) = some profileJ ∧
      assocGet fs ("questions".toList) = some questionsJ) ∧
    (∃ fs, generate_interviewee_packet cp qs t = Json.obj fs ∧
      fs.map Prod.fst = packetSchemaKeys ∧
      assocGet fs ("invitation_text".toList) = some (Json.str invitationText) ∧
      assocGet fs ("questions_menu".toList) =
        some (Json.arr (qs.map simplifyQuestion)) ∧
      (∃ af, assocGet fs ("ai_findings".toList) = some (Json.obj af) ∧
        assocGet af ("company_summary".toList) =
          some ((assocGet cp ("description".toList)).getD (Json.str [])) ∧
        assocGet af ("key_facts".toList) =
          some ((assocGet cp ("key_initiatives".toList)).getD (Json.arr [])))) := by
  refine ⟨?_, ?_, ?_, ?_⟩
  · refine ⟨profileFallbackFields sd t, ?_, rfl, rfl, rfl⟩
    simp only [generate_company_profile, hfail]
  · simp only [generate_questions, hfail]
  · refine ⟨briefFallbackFields profileJ questionsJ, ?_, rfl, rfl, rfl, rfl⟩
    simp only [generate_interviewer_brief, hfail]
  · refine ⟨packetFallbackFields cp qs, ?_, rfl, rfl, rfl, ?_⟩
    · simp only [generate_interviewee_packet, hfail]
    · exact ⟨_, rfl, rfl, rfl⟩

/-- C3 counterexample: on non-JSON garbage the questions operation returns the
bare empty list — a value with no keys and hence no explicit
low-confidence/error marker — and the packet fallback's invitation_text is the
standard friendly message, not an error marker, refuting the claim that each
of the four fallbacks carries an explicit marker. -/
theorem C3_generation_fallbacks_counterexample :
    parseJsonResponse ("oops".toList) = none ∧
    generate_questions ("oops".toList) = [] ∧
    (∃ fs, generate_interviewee_packet [] [] ("oops".toList) = Json.obj fs ∧
      assocGet fs ("invitation_text".toList) = some (Json.str invitationText)) := by
  refine ⟨rfl, rfl, ⟨_, rfl, rfl⟩⟩

/-- Closed instance of the amended C3 at concrete inputs. -/
theorem C3_generation_fallbacks_witness :
    parseJsonResponse ("no json here".toList) = none ∧
    ((∃ fs, generate_company_profile [("company_name".toList, Json.str ['A'])]
        ("no json here".toList) = Json.obj fs ∧
      fs.map Prod.fst = profileSchemaKeys ∧
      assocGet fs ("confidence_level".toList) =
        some (Json.str ("Low — JSON parse failed, raw text returned".toList)) ∧
      assocGet fs ("description".toList) =
        some (Json.str (("no json here".toList).take 500))) ∧
    generate_questions ("no json here".toList) = [] ∧
    (∃ fs, generate_interviewer_brief (Json.str ['p']) (Json.arr [])
        ("no json here".toList) = some (Json.obj fs) ∧
      fs.map Prod.fst = briefSchemaKeys ∧
      assocGet fs ("executive_summary".toList) =
        some (Json.str ("Brief generation encountered a parsing error.".toList)) ∧
      assocGet fs ("company_overview".toList) = some (Json.str ['p']) ∧
      assocGet fs ("questions".toList) = some (Json.arr [])) ∧
    (∃ fs, generate_interviewee_packet [("description".toList, Json.str ['d'])]
        [[("id".toList, Json.str ['q']), ("category".toList, Json.str ['r'])]]
        ("no json here".toList) = Json.obj fs ∧
      fs.map Prod.fst = packetSchemaKeys ∧
      assocGet fs ("invitation_text".toList) = some (Json.str invitationText) ∧
      assocGet fs ("questions_menu".toList) =
        some (Json.arr ([[("id".toList, Json.str ['q']),
          ("category".toList, Json.str ['r'])]].map simplifyQuestion)) ∧
      (∃ af, assocGet fs ("ai_findings".toList) = some (Json.obj af) ∧
        assocGet af ("company_summary".toList) =
          some ((assocGet [("description".toList, Json.str ['d'])]
            ("description".toList)).getD (Json.str [])) ∧
        assocGet af ("key_facts".toList) =
          some ((assocGet [("description".toList, Json.str ['d'])]
            ("key_initiatives".toList)).getD (Json.arr []))))) :=
  ⟨rfl,
   C3_generation_fallbacks_amended [("company_name".toList, Json.str ['A'])]
     [("description".toList, Json.str ['d'])] (Json.str ['p']) (Json.arr [])
     [[("id".toList, Json.str ['q']), ("category".toList, Json.str ['r'])]]
     ("no json here".toList) rfl⟩

/-- C9: an unsupported extension yields an extraction result with empty text,
method "unsupported" and an explicit error note rather than an exception, and
the handler still returns a success response and appends a parsedDocuments
entry with text_length 0 to the existing session record. -/
theorem C9_unsupported_extension (docxText textractText fn sid : Str)
    (sess : SessionRec) (getSession : Str → Option SessionRec)
    (hext1 : extOf fn ≠ "docx".toList) (hext2 : extOf fn ∉ supportedTextract)
    (hsid : sid ≠ []) (hfn : fn ≠ [])
    (hget : getSession sid = some sess) :
    (upload_and_process docxText textractText fn sid).text = [] ∧
    (upload_and_process docxText textractText fn sid).method = "unsupported".toList ∧
    (upload_and_process docxText textractText fn sid).error =
      some ("Unsupported file type: .".toList ++ extOf fn) ∧
    (lambda_handler getSession docxText textractText sid fn true).1 =
      HandlerResp.ok sid fn ("unsupported".toList) 0 []
        ("uploads/".toList ++ sid ++ '/' :: fn) ∧
    (lambda_handler getSession docxText textractText sid fn true).2 =
      some (sid, sess.createdAt, sess.parsedDocuments ++
        [⟨fn, "unsupported".toList, 0, "uploads/".toList ++ sid ++ '/' :: fn⟩]) := by
  have hup : upload_and_process docxText textractText fn sid =
      ⟨[], "unsupported".toList, fn, "uploads/".toList ++ sid ++ '/' :: fn,
        some ("Unsupported file type: .".toList ++ extOf fn)⟩ := by
    simp only [upload_and_process]
    rw [if_neg hext1, if_neg hext2]
  refine ⟨by rw [hup], by rw [hup], by rw [hup], ?_, ?_⟩
  · simp [lambda_handler, hsid, hfn, hup]
  · simp [lambda_handler, hsid, hfn, hup, hget]

/-- Closed instance of C9 at filename "notes.xyz". -/
theorem C9_unsupported_extension_witness :
    (upload_and_process ['d'] ['t'] ("notes.xyz".toList) ['s']).text = [] ∧
    (upload_and_process ['d'] ['t'] ("notes.xyz".toList) ['s']).method =
      "unsupported".toList ∧
    (upload_and_process ['d'] ['t'] ("notes.xyz".toList) ['s']).error =
      some ("Unsupported file type: .".toList ++ extOf ("notes.xyz".toList)) ∧
    (lambda_handler (fun _ => some ⟨['c'], []⟩) ['d'] ['t'] ['s']
      ("notes.xyz".toList) true).1 =
      HandlerResp.ok ['s'] ("notes.xyz".toList) ("unsupported".toList) 0 []
        ("uploads/".toList ++ ['s'] ++ '/' :: "notes.xyz".toList) ∧
    (lambda_handler (fun _ => some ⟨['c'], []⟩) ['d'] ['t'] ['s']
      ("notes.xyz".toList) true).2 =
      some (['s'], ['c'], ([] : List ParsedDocEntry) ++
        [⟨"notes.xyz".toList, "unsupported".toList, 0,
          "uploads/".toList ++ ['s'] ++ '/' :: "notes.xyz".toList⟩]) :=
  C9_unsupported_extension ['d'] ['t'] ("notes.xyz".toList) ['s'] ⟨['c'], []⟩
    (fun _ => some ⟨['c'], []⟩) (by decide) (by decide) (by decide) (by decide) rfl

/-- C10: a request whose sessionId has no session record is not rejected —
the handler still extracts the file and returns the success payload with
method, text length and preview, and issues no store write at all. -/
theorem C10_missing_session (docxText textractText sid fn : Str)
    (getSession : Str → Option SessionRec)
    (hsid : sid ≠ []) (hfn : fn ≠ [])
    (hget : getSession sid = none) :
    (lambda_handler getSession docxText textractText sid fn true).1 =
      HandlerResp.ok sid fn (upload_and_process docxText textractText fn sid).method
        (upload_and_process docxText textractText fn sid).text.length
        ((upload_and_process docxText textractText fn sid).text.take 500)
        (upload_and_process docxText textractText fn sid).s3_key ∧
    (lambda_handler getSession docxText textractText sid fn true).2 = none := by
  constructor
  · simp [lambda_handler, hsid, hfn]
  · simp [lambda_handler, hsid, hfn, hget]

/-- Closed instance of C10: a PDF parsed for an unknown session. -/
theorem C10_missing_session_witness :
    (lambda_handler (fun _ => none) ['d'] ['t'] ['s'] ("a.pdf".toList) true).1 =
      HandlerResp.ok ['s'] ("a.pdf".toList)
        (upload_and_process ['d'] ['t'] ("a.pdf".toList) ['s']).method
        (upload_and_process ['d'] ['t'] ("a.pdf".toList) ['s']).text.length
        ((upload_and_process ['d'] ['t'] ("a.pdf".toList) ['s']).text.take 500)
        (upload_and_process ['d'] ['t'] ("a.pdf".toList) ['s']).s3_key ∧
    (lambda_handler (fun _ => none) ['d'] ['t'] ['s'] ("a.pdf".toList) true).2 = none :=
  C10_missing_session ['d'] ['t'] ['s'] ("a.pdf".toList) (fun _ => none)
    (by decide) (by decide) rfl

end InterviewIQ

